import Mathlib

/-!
Verification development for the TinyFont VECF codec:
`TyfPacker` (segmenter + block builder + file writer), `TyfParser`
(header/index loader + per-codepoint stroke lookup) and the packing-cost
optimizer of the analyzer (`simulate_packing` plus the threshold scan).

Python floats are embedded as rationals, byte strings as `List ℕ`
(every element a byte value), dictionaries of glyphs as association
lists sorted by codepoint.  Fallible operations (Python exceptions)
are embedded with `Option`/`Except`.
-/

set_option maxHeartbeats 1000000

namespace TinyFont

/-- A point: pair of coordinates (Python floats embedded as rationals). -/
abbrev Pt := ℚ × ℚ

/-- A stroke: ordered list of points. -/
abbrev Stroke := List Pt

/-- A glyph: list of strokes. -/
abbrev Strokes := List Stroke

/-! ### Geometry codec (from `TyfPacker.finish`, lines 111-116, and
`TyfParser.get_strokes`, lines 256-268) -/

/-- Coordinate quantization in `TyfPacker.finish`:
`int(max(0.0, min(1.0, f)) * 127.0) & 0x7F`.  The clamped value is
nonnegative, so Python `int` truncation is `Int.floor`. -/
def quant (x : ℚ) : ℕ := (⌊max 0 (min 1 x) * 127⌋).toNat &&& 127

/-- One encoded point: two bytes, the x byte carrying the stroke-start
flag (bit 7) iff the point is the first of its stroke (`if i == 0: ix |= 0x80`). -/
def encodePoint (first : Bool) (p : Pt) : List ℕ :=
  [if first then quant p.1 ||| 128 else quant p.1, quant p.2]

/-- Encoding of one stroke: the first point is marked, interior points are not. -/
def encodeStroke (st : Stroke) : List ℕ :=
  match st with
  | [] => []
  | p :: ps => encodePoint true p ++ ps.flatMap (encodePoint false)

/-- `glyph_data` accumulated by the inner loop of `TyfPacker.finish`. -/
def glyph_data (g : Strokes) : List ℕ := g.flatMap encodeStroke

/-- Total number of points of a glyph. -/
def totalPoints (g : Strokes) : ℕ := (g.map List.length).sum

/-- Length-table byte for a slot: `0` for a gap (`None`) or an empty
glyph (`if not strokes`), else `min(255, len(glyph_data) // 2)`. -/
def slotLen (o : Option Strokes) : ℕ :=
  match o with
  | none => 0
  | some s => if s = [] then 0 else min 255 ((glyph_data s).length / 2)

/-- Stream bytes contributed by a slot:
`glyph_data[:point_count*2]` (nothing for a gap or empty glyph). -/
def slotData (o : Option Strokes) : List ℕ :=
  match o with
  | none => []
  | some s =>
    if s = [] then []
    else (glyph_data s).take (min 255 ((glyph_data s).length / 2) * 2)

/-- Quantized form of a point, as the parser reproduces it. -/
def quantPt (p : Pt) : Pt := ((quant p.1 : ℚ) / 127, (quant p.2 : ℚ) / 127)

/-- Quantized form of a glyph: what a lossless read-back must return. -/
def quantStrokes (g : Strokes) : Strokes := g.map (fun st => st.map quantPt)

/-- Error conditions of the parser: the only exception the reading path
can raise is an out-of-range index (Python `IndexError`). -/
inductive PErr where
  | indexError
deriving DecidableEq

/-- Decode loop of `TyfParser.get_strokes` (lines 256-268): iterate byte
pairs, a set bit 7 of the x byte closes the current stroke and opens a
new one; a dangling single byte is an out-of-range `raw_bytes[i + 1]`. -/
def decodeLoop : List ℕ → Stroke → Strokes → Except PErr Strokes
  | [], cur, acc => .ok (acc ++ if cur = [] then [] else [cur])
  | [_], _, _ => .error .indexError
  | bx :: b2 :: rest, cur, acc =>
    let p : Pt := (((bx &&& 127 : ℕ) : ℚ) / 127, ((b2 &&& 127 : ℕ) : ℚ) / 127)
    if bx &&& 128 ≠ 0 then
      decodeLoop rest [p] (acc ++ if cur = [] then [] else [cur])
    else
      decodeLoop rest (cur ++ [p]) acc

/-- Decoding of a raw byte slice into strokes. -/
def decodeStrokes (raw : List ℕ) : Except PErr Strokes := decodeLoop raw [] []

/-! ### Section segmenter (`TyfPacker._generate_sections`, lines 41-75).
The split rule is parametrized by the gap threshold; the packer
instantiates it with the constant `14` (`gap > 14` on line 65). -/

/-- A section under construction / as produced: start codepoint and the
slot list (`None` entries are gaps). -/
structure Sec where
  start : ℕ
  glyphs : List (Option Strokes)
deriving DecidableEq

/-- Loop body of `_generate_sections` over the sorted codepoint list. -/
def genSecsAux (t : ℕ) (cur : Sec) (prev : ℕ) :
    List (ℕ × Strokes) → List Sec
  | [] => [cur]
  | (c, g) :: rest =>
    let gap := c - prev - 1
    let is_too_wide := cur.glyphs.length + gap ≥ 256
    let is_new_plane := prev >>> 16 ≠ c >>> 16
    if gap > t ∨ is_too_wide ∨ is_new_plane then
      cur :: genSecsAux t ⟨c, [some g]⟩ c rest
    else
      genSecsAux t ⟨cur.start, cur.glyphs ++ List.replicate gap none ++ [some g]⟩ c rest

/-- `_generate_sections` with the gap threshold as a parameter; the input
is the glyph map as an association list already sorted by codepoint
(`sorted_codes`). -/
def generate_sections (t : ℕ) : List (ℕ × Strokes) → List Sec
  | [] => []
  | (c, g) :: rest => genSecsAux t ⟨c, [some g]⟩ c rest

/-! ### Block builder and file writer (`TyfPacker.finish`, lines 77-154) -/

/-- Little-endian bytes of a `struct '<H'` value. -/
def u16le (n : ℕ) : List ℕ := [n % 256, n / 256 % 256]

/-- Little-endian bytes of a `struct '<I'` value. -/
def u32le (n : ℕ) : List ℕ :=
  [n % 256, n / 256 % 256, n / 65536 % 256, n / 16777216 % 256]

/-- `TyfPacker._pack_24bit_ptr`: `struct.pack('<I', address >> 2)[:3]`. -/
def pack_24bit_ptr (address : ℕ) : List ℕ := (u32le (address >>> 2)).take 3

/-- Length table of a section (`glyph_lengths`): one byte per slot. -/
def length_table (sec : Sec) : List ℕ := sec.glyphs.map slotLen

/-- Data stream of a section (`glyph_stream`): concatenated point bytes. -/
def data_stream (sec : Sec) : List ℕ := (sec.glyphs.map slotData).flatten

/-- Full serialized block of a section:
`struct.pack('<bbH', 0, 0, meta_off) + glyph_lengths + glyph_stream`
with `meta_off = (total_block_size + 3) // 4`. -/
def blockBytes (sec : Sec) : List ℕ :=
  let lt := length_table sec
  let ds := data_stream sec
  let meta := (4 + lt.length + ds.length + 3) / 4
  [0, 0] ++ u16le meta ++ lt ++ ds

/-- Index entry for a section placed at absolute offset `ptr`:
`struct.pack('<HHB', props, start_code_low, count_field) + pack_24bit_ptr`. -/
def indexEntry (sec : Sec) (ptr : ℕ) : List ℕ :=
  let props := ((sec.start >>> 16) &&& 31) <<< 11
  u16le props ++ u16le (sec.start &&& 65535) ++ [sec.glyphs.length - 1] ++
    pack_24bit_ptr ptr

/-- Result of laying out all blocks: the concatenated (padded) block
bytes, the index entries, the absolute offset of each block, the final
offset and the total padding inserted. -/
structure BuildOut where
  bin : List ℕ
  idx : List (List ℕ)
  ptrs : List ℕ
  stop : ℕ
  pad : ℕ

/-- Per-section loop of `TyfPacker.finish`: pad to 4-byte alignment,
emit the block, record the index entry, advance `current_abs_offset`. -/
def buildBlocks (off : ℕ) : List Sec → BuildOut
  | [] => ⟨[], [], [], off, 0⟩
  | sec :: rest =>
    let padding := (4 - off % 4) % 4
    let ptr := off + padding
    let blk := blockBytes sec
    let out := buildBlocks (ptr + blk.length) rest
    ⟨List.replicate padding 0 ++ blk ++ out.bin, indexEntry sec ptr :: out.idx,
      ptr :: out.ptrs, out.stop, padding + out.pad⟩

/-- File magic `b'VECF'`. -/
def magic : List ℕ := [86, 69, 67, 70]

/-- `TyfPacker.finish`: serialize the whole glyph map.  Returns `none`
when the source writes no file: empty map (`if not sections: return`) or
a `struct.error` (section count not fitting `'<H'`, or a block address
whose 24-bit pointer packing `struct.pack('<I', address >> 2)` or the
`'<I'` font id would overflow). -/
def finish (fontId : ℕ) (entries : List (ℕ × Strokes)) : Option (List ℕ) :=
  let sections := generate_sections 14 entries
  if sections.isEmpty then none
  else
    let N := sections.length
    let out := buildBlocks (12 + N * 8) sections
    if N < 65536 ∧ fontId < 4294967296 ∧ out.stop < 17179869184 then
      some (magic ++ u32le fontId ++ u16le 0 ++ u16le N ++ out.idx.flatten ++ out.bin)
    else none

/-- Block offsets as placed by the packer (`block_start_ptr` values). -/
def blockPtrs (entries : List (ℕ × Strokes)) : List ℕ :=
  let sections := generate_sections 14 entries
  (buildBlocks (12 + sections.length * 8) sections).ptrs

/-! ### Parser (`TyfParser`, lines 158-268) -/

/-- Parsed index entry: `{'start': full_start, 'count': count + 1, 'ptr': abs_offset}`. -/
structure PSec where
  start : ℕ
  count : ℕ
  ptr : ℕ
deriving DecidableEq

/-- Decoding of one 8-byte index entry (`struct.unpack('<HHBBBB', entry_raw)`
followed by the reconstructions on lines 198-202).  `struct.unpack`
requires exactly 8 bytes; the caller only reaches this after the length
check, so the fallback branch is unreachable. -/
def readEntryBytes (b : List ℕ) : PSec :=
  match b with
  | [b0, b1, b2, b3, b4, b5, b6, b7] =>
    let props := b0 + 256 * b1
    let start_code := b2 + 256 * b3
    let count := b4
    let plane_id := (props >>> 11) &&& 31
    let full_start := (plane_id <<< 16) ||| start_code
    let abs_offset := (b5 ||| (b6 <<< 8) ||| (b7 <<< 16)) <<< 2
    ⟨full_start, count + 1, abs_offset⟩
  | _ => ⟨0, 0, 0⟩

/-- Index reading loop of `TyfParser.load`: `k` entries of 8 bytes from
offset `p`; a short slice is a `struct.error` (load returns `False`). -/
def parseEntriesAux (data : List ℕ) : ℕ → ℕ → Option (List PSec)
  | _, 0 => some []
  | p, k + 1 =>
    let raw := (data.drop p).take 8
    if raw.length = 8 then
      match parseEntriesAux data (p + 8) k with
      | some rest => some (readEntryBytes raw :: rest)
      | none => none
    else none

/-- `TyfParser.load` on an in-memory buffer: magic check, global header
(`struct.unpack('<IHH', data[4:12])`), then the section index.  `none`
embeds a `False` return (bad magic, or an exception while unpacking). -/
def load (data : List ℕ) : Option (List PSec) :=
  if data.take 4 ≠ magic then none
  else if ((data.drop 4).take 8).length ≠ 8 then none
  else
    parseEntriesAux data 12
      (((data.drop 4).take 8).getD 6 0 + 256 * ((data.drop 4).take 8).getD 7 0)

/-- Parser object state: `data` (`None` before any load) and `sections`. -/
structure ParserState where
  data : Option (List ℕ)
  sections : List PSec

/-- A freshly constructed `TyfParser()`. -/
def initParser : ParserState := ⟨none, []⟩

/-- State of a parser after `load` of an in-memory buffer: `self.data`
is assigned before any validation; on failure the fresh parser keeps its
empty section list. -/
def parseFile (buf : List ℕ) : ParserState := ⟨some buf, (load buf).getD []⟩

/-- `TyfParser.get_strokes`.  Python list indexing out of range raises
(`IndexError`, embedded as `.error`), while slices silently truncate. -/
def get_strokes (st : ParserState) (u : ℕ) : Except PErr Strokes :=
  match st.data with
  | none => .ok []
  | some data =>
    match st.sections.find? (fun s => decide (s.start ≤ u) && decide (u < s.start + s.count)) with
    | none => .ok []
    | some sec =>
      let len_table_start := sec.ptr + 4
      let local_idx := u - sec.start
      match data[len_table_start + local_idx]? with
      | none => .error .indexError
      | some target_len =>
        if target_len = 0 then .ok []
        else
          let preceding := ((data.drop len_table_start).take local_idx).sum
          let data_offset := len_table_start + sec.count + preceding * 2
          decodeStrokes ((data.drop data_offset).take (target_len * 2))

/-! ### Optimizer (`analyze.py`, `simulate_packing` lines 149-205 and the
threshold scan lines 207-215) -/

/-- Mutable state of the `simulate_packing` loop. -/
structure SimSt where
  secs : ℕ
  empty : ℕ
  pad : ℕ
  slots : ℕ
  blen : ℕ
deriving DecidableEq

/-- Loop body of `simulate_packing` over `all_chars_data[1:]`. -/
def simPackAux (t : ℕ) : List (ℕ × ℕ) → ℕ → SimSt → SimSt
  | [], _, st => st
  | (c, sz) :: rest, prev, st =>
    let gap := c - prev - 1
    let is_too_wide := st.slots + gap + 1 > 256
    let is_new_plane := prev >>> 16 ≠ c >>> 16
    if gap > t ∨ is_too_wide ∨ is_new_plane then
      simPackAux t rest c
        ⟨st.secs + 1, st.empty, st.pad + (4 - st.blen % 4) % 4, 1, 4 + 1 + sz⟩
    else
      simPackAux t rest c
        ⟨st.secs, st.empty + gap, st.pad, st.slots + (gap + 1), st.blen + gap + 1 + sz⟩

/-- `simulate_packing(threshold)`: returns `(total_struct, sim_sections)`
for the sorted `(codepoint, byte length)` list. -/
def simulate_packing (t : ℕ) (chars : List (ℕ × ℕ)) : ℕ × ℕ :=
  match chars with
  | [] => (0, 0)
  | (c0, sz0) :: rest =>
    let st := simPackAux t rest c0 ⟨1, 0, 0, 1, 4 + 1 + sz0⟩
    let padF := st.pad + (4 - st.blen % 4) % 4
    (st.secs * 12 + (chars.length + st.empty) + padF, st.secs)

/-- One row of `scan_results`. -/
structure TRes where
  threshold : ℕ
  cost : ℕ
  sections : ℕ
deriving DecidableEq

/-- The scan `for t in range(1, 65)`. -/
def scan_results (chars : List (ℕ × ℕ)) : List TRes :=
  (List.range' 1 64).map
    (fun t => ⟨t, (simulate_packing t chars).1, (simulate_packing t chars).2⟩)

/-- One comparison step of Python `min(..., key=lambda x: x['cost'])`:
the current best is replaced only by a strictly smaller cost, so the
first minimum wins. -/
def pickMin (b r : TRes) : TRes := if r.cost < b.cost then r else b

/-- `best_opt = min(scan_results, key=lambda x: x['cost'])`.  The scan
list is never empty (64 candidates); the default is unreachable. -/
def best_opt (chars : List (ℕ × ℕ)) : TRes :=
  match scan_results chars with
  | [] => ⟨0, 0, 0⟩
  | b :: tl => tl.foldl pickMin b

/-! ### Association-list lookup on the glyph map -/

/-- First-match lookup in the (sorted) association list form of
`glyph_map`. -/
def lookupE : List (ℕ × Strokes) → ℕ → Option Strokes
  | [], _ => none
  | p :: rest, c => if p.1 = c then some p.2 else lookupE rest c

theorem lookupE_eq_none_of_lt (l : List (ℕ × Strokes)) (x : ℕ)
    (h : ∀ p ∈ l, x < p.1) : lookupE l x = none := by
  induction l with
  | nil => rfl
  | cons p rest ih =>
    have hp := h p (List.mem_cons_self p rest)
    show (if p.1 = x then some p.2 else lookupE rest x) = none
    rw [if_neg (by omega)]
    exact ih (fun q hq => h q (List.mem_cons_of_mem p hq))

/-- Number of real (non-gap) slots of a slot list. -/
def someCnt (l : List (Option Strokes)) : ℕ := l.countP (fun o => o.isSome)

/-! ### Segmenter invariants -/

theorem shiftRight16_between {a b x : ℕ} (hax : a ≤ x) (hxb : x ≤ b)
    (hab : a >>> 16 = b >>> 16) : x >>> 16 = a >>> 16 := by
  simp only [Nat.shiftRight_eq_div_pow] at *
  norm_num at *
  have h1 : a / 65536 ≤ x / 65536 := Nat.div_le_div_right hax
  have h2 : x / 65536 ≤ b / 65536 := Nat.div_le_div_right hxb
  omega

theorem someCnt_append (a b : List (Option Strokes)) :
    someCnt (a ++ b) = someCnt a + someCnt b :=
  List.countP_append _ _ _

theorem someCnt_replicate_none (n : ℕ) :
    someCnt (List.replicate n (none : Option Strokes)) = 0 := by
  induction n with
  | zero => rfl
  | succ k ih =>
    show someCnt (none :: List.replicate k none) = 0
    unfold someCnt at *
    rw [List.countP_cons]
    simp [ih]

theorem someCnt_le_length (l : List (Option Strokes)) : someCnt l ≤ l.length :=
  List.countP_le_length _

/-- Combined loop invariant of `_generate_sections`.  `L` is the glyph
map as a function; the hypotheses say the remaining list `rest` is the
graph of `L` above `prev` and the section under construction correctly
mirrors `L` on the slots already placed. -/
theorem genSecsAux_main (t : ℕ) (L : ℕ → Option Strokes) (rest : List (ℕ × Strokes)) :
    ∀ (cur : Sec) (prev : ℕ),
    (∀ p ∈ rest, prev < p.1) →
    (rest.map Prod.fst).Pairwise (· < ·) →
    1 ≤ cur.glyphs.length → cur.glyphs.length ≤ 256 →
    cur.start + cur.glyphs.length = prev + 1 →
    cur.start >>> 16 = prev >>> 16 →
    (∀ x, prev < x → L x = lookupE rest x) →
    (∀ i, i < cur.glyphs.length → cur.glyphs[i]? = some (L (cur.start + i))) →
    (∀ sec ∈ genSecsAux t cur prev rest,
      ((1 ≤ sec.glyphs.length ∧ sec.glyphs.length ≤ 256) ∧
       (∀ i < sec.glyphs.length, (sec.start + i) >>> 16 = sec.start >>> 16) ∧
       (∀ i, i < sec.glyphs.length → sec.glyphs[i]? = some (L (sec.start + i))))) ∧
    ((genSecsAux t cur prev rest).map (fun s => someCnt s.glyphs)).sum =
      someCnt cur.glyphs + rest.length ∧
    (∀ x, cur.start ≤ x → x ≤ prev → ∃ sec ∈ genSecsAux t cur prev rest,
      sec.start ≤ x ∧ x < sec.start + sec.glyphs.length) ∧
    (∀ p ∈ rest, ∃ sec ∈ genSecsAux t cur prev rest,
      sec.start ≤ p.1 ∧ p.1 < sec.start + sec.glyphs.length) ∧
    (genSecsAux t cur prev rest).Chain'
      (fun a b => a.start + a.glyphs.length ≤ b.start) ∧
    (∀ sec ∈ genSecsAux t cur prev rest, cur.start ≤ sec.start) := by
  induction rest with
  | nil =>
    intro cur prev _ _ h1 h256 hlen hplane _ hslots
    refine ⟨?_, by
      show (List.map (fun s => someCnt s.glyphs) [cur]).sum = someCnt cur.glyphs + List.length []
      simp, ?_, by simp, ?_, ?_⟩
    · intro sec hsec
      rw [List.mem_singleton.mp hsec]
      refine ⟨⟨h1, h256⟩, fun i hi => ?_, hslots⟩
      exact shiftRight16_between (Nat.le_add_right _ _) (by omega) hplane
    · intro x hx1 hx2
      exact ⟨cur, List.mem_singleton_self cur, hx1, by omega⟩
    · exact List.chain'_singleton cur
    · intro sec hsec
      have heq := List.mem_singleton.mp hsec
      subst heq
      exact le_refl _
  | cons p rest ih =>
    intro cur prev hgt hpair h1 h256 hlen hplane hL hslots
    obtain ⟨c, g⟩ := p
    have hcp : prev < c := hgt (c, g) (List.mem_cons_self _ _)
    have hpair' : (rest.map Prod.fst).Pairwise (· < ·) :=
      (List.pairwise_cons.mp hpair).2
    have hgt' : ∀ q ∈ rest, c < q.1 := by
      intro q hq
      exact (List.pairwise_cons.mp hpair).1 q.1 (List.mem_map_of_mem Prod.fst hq)
    have hstartprev : cur.start ≤ prev := by omega
    have hLc : L c = some g := by
      rw [hL c hcp]
      show (if c = c then some g else lookupE rest c) = some g
      rw [if_pos rfl]
    have hL' : ∀ x, c < x → L x = lookupE rest x := by
      intro x hx
      rw [hL x (by omega)]
      show (if c = x then some g else lookupE rest x) = lookupE rest x
      rw [if_neg (by omega)]
    have hLmid : ∀ x, prev < x → x < c → L x = none := by
      intro x hx1 hx2
      rw [hL x hx1]
      show (if c = x then some g else lookupE rest x) = none
      rw [if_neg (by omega)]
      exact lookupE_eq_none_of_lt rest x (fun q hq => by have := hgt' q hq; omega)
    rw [show genSecsAux t cur prev ((c, g) :: rest) =
        (if c - prev - 1 > t ∨ cur.glyphs.length + (c - prev - 1) ≥ 256 ∨
            prev >>> 16 ≠ c >>> 16 then
          cur :: genSecsAux t ⟨c, [some g]⟩ c rest
        else
          genSecsAux t
            ⟨cur.start, cur.glyphs ++ List.replicate (c - prev - 1) none ++ [some g]⟩
            c rest) from rfl]
    by_cases hcond : c - prev - 1 > t ∨ cur.glyphs.length + (c - prev - 1) ≥ 256 ∨
        prev >>> 16 ≠ c >>> 16
    · rw [if_pos hcond]
      have hslots' : ∀ i, i < ([some g] : List (Option Strokes)).length →
          ([some g] : List (Option Strokes))[i]? = some (L (c + i)) := by
        intro i hi
        simp only [List.length_singleton] at hi
        interval_cases i
        simp [hLc]
      obtain ⟨r1, r2, r3, r4, r5, r6⟩ :=
        ih ⟨c, [some g]⟩ c hgt' hpair' (by simp) (by simp) (by simp) rfl hL' hslots'
      have hcurinv : (1 ≤ cur.glyphs.length ∧ cur.glyphs.length ≤ 256) ∧
          (∀ i < cur.glyphs.length, (cur.start + i) >>> 16 = cur.start >>> 16) ∧
          (∀ i, i < cur.glyphs.length → cur.glyphs[i]? = some (L (cur.start + i))) := by
        refine ⟨⟨h1, h256⟩, fun i hi => ?_, hslots⟩
        exact shiftRight16_between (Nat.le_add_right _ _) (by omega) hplane
      refine ⟨?_, ?_, ?_, ?_, ?_, ?_⟩
      · intro sec hsec
        rcases List.mem_cons.mp hsec with rfl | hsec
        · exact hcurinv
        · exact r1 sec hsec
      · rw [List.map_cons, List.sum_cons, r2]
        show someCnt cur.glyphs + (someCnt [some g] + rest.length) =
          someCnt cur.glyphs + ((c, g) :: rest).length
        have h1g : someCnt [some g] = 1 := rfl
        simp only [List.length_cons]
        omega
      · intro x hx1 hx2
        exact ⟨cur, List.mem_cons_self _ _, hx1, by omega⟩
      · intro q hq
        rcases List.mem_cons.mp hq with heq | hq
        · subst heq
          obtain ⟨sec, hsec, hcov⟩ := r3 c (le_refl _) (le_refl _)
          exact ⟨sec, List.mem_cons_of_mem _ hsec, hcov⟩
        · obtain ⟨sec, hsec, hcov⟩ := r4 q hq
          exact ⟨sec, List.mem_cons_of_mem _ hsec, hcov⟩
      · rw [List.chain'_cons']
        refine ⟨fun h hh => ?_, r5⟩
        have hmem : h ∈ genSecsAux t ⟨c, [some g]⟩ c rest :=
          List.mem_of_mem_head? hh
        have hch : c ≤ h.start := r6 h hmem
        show cur.start + cur.glyphs.length ≤ h.start
        omega
      · intro sec hsec
        rcases List.mem_cons.mp hsec with heq | hsec
        · subst heq
          exact le_refl _
        · have hch : c ≤ sec.start := r6 sec hsec
          omega
    · rw [if_neg hcond]
      push_neg at hcond
      obtain ⟨hgap, hwide, hsameplane⟩ := hcond
      set gap := c - prev - 1 with hgapdef
      set cur' : Sec :=
        ⟨cur.start, cur.glyphs ++ List.replicate gap none ++ [some g]⟩ with hcur'
      have hlen' : cur'.glyphs.length = cur.glyphs.length + gap + 1 := by
        show (cur.glyphs ++ List.replicate gap none ++ [some g]).length = _
        simp only [List.length_append, List.length_replicate, List.length_singleton]
      have hslots' : ∀ i, i < cur'.glyphs.length →
          cur'.glyphs[i]? = some (L (cur'.start + i)) := by
        intro i hi
        rw [hlen'] at hi
        show (cur.glyphs ++ List.replicate gap none ++ [some g])[i]? = _
        by_cases hi1 : i < cur.glyphs.length
        · rw [List.getElem?_append_left (by simp; omega),
            List.getElem?_append_left hi1]
          exact hslots i hi1
        · by_cases hi2 : i < cur.glyphs.length + gap
          · rw [List.getElem?_append_left (by simp; omega),
              List.getElem?_append_right (by omega)]
            rw [List.getElem?_replicate_of_lt (by omega)]
            have : L (cur.start + i) = none := by
              refine hLmid (cur.start + i) (by omega) (by omega)
            rw [show cur'.start = cur.start from rfl, this]
          · have hi3 : i = cur.glyphs.length + gap := by omega
            rw [List.getElem?_append_right (by simp; omega)]
            have hidx : i - (cur.glyphs ++ List.replicate gap (none : Option Strokes)).length = 0 := by
              simp
              omega
            rw [hidx]
            have hcs : cur'.start + i = c := by
              show cur.start + i = c
              omega
            rw [hcs, hLc]
            rfl
      obtain ⟨r1, r2, r3, r4, r5, r6⟩ :=
        ih cur' c hgt' hpair' (by rw [hlen']; omega) (by rw [hlen']; omega)
          (by show cur.start + cur'.glyphs.length = c + 1; rw [hlen']; omega)
          (by show cur.start >>> 16 = c >>> 16; exact hplane.trans hsameplane)
          hL' hslots'
      refine ⟨r1, ?_, ?_, ?_, r5, ?_⟩
      · rw [r2]
        show someCnt (cur.glyphs ++ List.replicate gap none ++ [some g]) + rest.length =
          someCnt cur.glyphs + ((c, g) :: rest).length
        rw [someCnt_append, someCnt_append, someCnt_replicate_none]
        have hsc2 : someCnt [some g] = 1 := rfl
        simp only [List.length_cons]
        omega
      · intro x hx1 hx2
        exact r3 x hx1 (by omega)
      · intro q hq
        rcases List.mem_cons.mp hq with heq | hq
        · subst heq
          exact r3 c (by show cur.start ≤ c; omega) (le_refl _)
        · exact r4 q hq
      · intro sec hsec
        exact r6 sec hsec

/-- Top-level segmenter facts on a sorted glyph map: section invariants,
slot bookkeeping, coverage of every codepoint of the map, and ordering
of the produced sections. -/
theorem generate_sections_main (t : ℕ) (entries : List (ℕ × Strokes))
    (hsort : (entries.map Prod.fst).Pairwise (· < ·)) :
    (∀ sec ∈ generate_sections t entries,
      ((1 ≤ sec.glyphs.length ∧ sec.glyphs.length ≤ 256) ∧
       (∀ i < sec.glyphs.length, (sec.start + i) >>> 16 = sec.start >>> 16) ∧
       (∀ i, i < sec.glyphs.length →
         sec.glyphs[i]? = some (lookupE entries (sec.start + i))))) ∧
    ((generate_sections t entries).map (fun s => someCnt s.glyphs)).sum =
      entries.length ∧
    (∀ p ∈ entries, ∃ sec ∈ generate_sections t entries,
      sec.start ≤ p.1 ∧ p.1 < sec.start + sec.glyphs.length) ∧
    (generate_sections t entries).Chain'
      (fun a b => a.start + a.glyphs.length ≤ b.start) := by
  match entries with
  | [] =>
    refine ⟨by simp [generate_sections], by simp [generate_sections], by simp,
      by simp [generate_sections]⟩
  | (c0, g0) :: rest =>
    have hgt : ∀ p ∈ rest, c0 < p.1 := by
      intro q hq
      exact (List.pairwise_cons.mp hsort).1 q.1 (List.mem_map_of_mem Prod.fst hq)
    have hpair' : (rest.map Prod.fst).Pairwise (· < ·) :=
      (List.pairwise_cons.mp hsort).2
    have hL : ∀ x, c0 < x → lookupE ((c0, g0) :: rest) x = lookupE rest x := by
      intro x hx
      show (if c0 = x then some g0 else lookupE rest x) = lookupE rest x
      rw [if_neg (by omega)]
    have hslots : ∀ i, i < ([some g0] : List (Option Strokes)).length →
        ([some g0] : List (Option Strokes))[i]? =
          some (lookupE ((c0, g0) :: rest) (c0 + i)) := by
      intro i hi
      simp only [List.length_singleton] at hi
      interval_cases i
      have hl0 : lookupE ((c0, g0) :: rest) c0 = some g0 := by
        show (if c0 = c0 then some g0 else _) = some g0
        rw [if_pos rfl]
      simp [hl0]
    obtain ⟨r1, r2, r3, r4, r5, r6⟩ :=
      genSecsAux_main t (lookupE ((c0, g0) :: rest)) rest ⟨c0, [some g0]⟩ c0
        hgt hpair' (by simp) (by simp) (by simp) rfl hL hslots
    refine ⟨r1, ?_, ?_, r5⟩
    · rw [show generate_sections t ((c0, g0) :: rest) =
          genSecsAux t ⟨c0, [some g0]⟩ c0 rest from rfl, r2]
      have hsc2 : someCnt [some g0] = 1 := rfl
      simp only [List.length_cons]
      show someCnt [some g0] + rest.length = rest.length + 1
      omega
    · intro p hp
      rcases List.mem_cons.mp hp with heq | hp
      · subst heq
        exact r3 c0 (le_refl _) (le_refl _)
      · exact r4 p hp

/-! ### C5: per-section invariants, plane splits, capacity splits -/

/-- C5: every section stays within one plane with at most 256 slots;
`0xFFFF` and `0x10000` always land in separate sections; 300
consecutive codepoints always produce at least two sections. -/
theorem C5_section_invariants (t : ℕ) (entries : List (ℕ × Strokes))
    (hsort : (entries.map Prod.fst).Pairwise (· < ·)) :
    (∀ sec ∈ generate_sections t entries,
      (∀ i < sec.glyphs.length, (sec.start + i) >>> 16 = sec.start >>> 16) ∧
      sec.glyphs.length ≤ 256) ∧
    (65535 ∈ entries.map Prod.fst → 65536 ∈ entries.map Prod.fst →
      ∃ s1 ∈ generate_sections t entries, ∃ s2 ∈ generate_sections t entries,
        s1 ≠ s2 ∧ (s1.start ≤ 65535 ∧ 65535 < s1.start + s1.glyphs.length) ∧
        (s2.start ≤ 65536 ∧ 65536 < s2.start + s2.glyphs.length)) ∧
    (∀ c : ℕ, entries.map Prod.fst = List.range' c 300 →
      2 ≤ (generate_sections t entries).length) := by
  obtain ⟨r1, r2, r3, _⟩ := generate_sections_main t entries hsort
  refine ⟨fun sec hsec => ⟨((r1 sec hsec).2).1, ((r1 sec hsec).1).2⟩, ?_, ?_⟩
  · intro hm1 hm2
    obtain ⟨p1, hp1, hp1e⟩ := List.mem_map.mp hm1
    obtain ⟨p2, hp2, hp2e⟩ := List.mem_map.mp hm2
    obtain ⟨s1, hs1, hc1⟩ := r3 p1 hp1
    obtain ⟨s2, hs2, hc2⟩ := r3 p2 hp2
    rw [hp1e] at hc1
    rw [hp2e] at hc2
    refine ⟨s1, hs1, s2, hs2, ?_, hc1, hc2⟩
    intro heq
    subst heq
    have hpl := ((r1 s1 hs1).2).1
    have e1 : (s1.start + (65535 - s1.start)) >>> 16 = s1.start >>> 16 :=
      hpl (65535 - s1.start) (by omega)
    have e2 : (s1.start + (65536 - s1.start)) >>> 16 = s1.start >>> 16 :=
      hpl (65536 - s1.start) (by omega)
    rw [show s1.start + (65535 - s1.start) = 65535 from by omega] at e1
    rw [show s1.start + (65536 - s1.start) = 65536 from by omega] at e2
    have hv1 : (65535 : ℕ) >>> 16 = 0 := by decide
    have hv2 : (65536 : ℕ) >>> 16 = 1 := by decide
    omega
  · intro c hrange
    have hlen300 : entries.length = 300 := by
      have := congrArg List.length hrange
      simpa using this
    by_contra hcon
    push_neg at hcon
    rcases hG : generate_sections t entries with _ | ⟨s, srest⟩
    · rw [hG] at r2
      simp at r2
      omega
    · have hsr : srest = [] := by
        rw [hG] at hcon
        simp at hcon
        exact List.length_eq_zero.mp (by omega)
      subst hsr
      rw [hG] at r2
      simp at r2
      have hb := ((r1 s (by rw [hG]; exact List.mem_singleton_self s)).1).2
      have hcnt := someCnt_le_length s.glyphs
      omega

/-- Witness for C5 at the two-glyph map `{0xFFFF: g, 0x10000: g}`. -/
theorem C5_witness :
    ∃ s1 ∈ generate_sections 14 [(65535, ([] : Strokes)), (65536, ([] : Strokes))],
    ∃ s2 ∈ generate_sections 14 [(65535, ([] : Strokes)), (65536, ([] : Strokes))],
      s1 ≠ s2 ∧ (s1.start ≤ 65535 ∧ 65535 < s1.start + s1.glyphs.length) ∧
      (s2.start ≤ 65536 ∧ 65536 < s2.start + s2.glyphs.length) :=
  (C5_section_invariants 14 [(65535, ([] : Strokes)), (65536, ([] : Strokes))]
    (by decide)).2.1 (by decide) (by decide)

/-! ### Byte sizes of encoded glyphs, blocks and sections -/

theorem encodeStroke_length (st : Stroke) : (encodeStroke st).length = 2 * st.length := by
  cases st with
  | nil => rfl
  | cons p ps =>
    show (encodePoint true p ++ ps.flatMap (encodePoint false)).length = 2 * (p :: ps).length
    rw [List.length_append]
    have h2 : ∀ l : List Pt, (l.flatMap (encodePoint false)).length = 2 * l.length := by
      intro l
      induction l with
      | nil => rfl
      | cons q qs ih =>
        rw [List.flatMap_cons, List.length_append, ih]
        rw [show (encodePoint false q).length = 2 from rfl]
        simp only [List.length_cons]
        omega
    rw [h2, show (encodePoint true p).length = 2 from rfl]
    simp only [List.length_cons]
    omega

theorem glyph_data_length (g : Strokes) : (glyph_data g).length = 2 * totalPoints g := by
  induction g with
  | nil => rfl
  | cons st sts ih =>
    show (encodeStroke st ++ sts.flatMap encodeStroke).length =
      2 * ((st :: sts).map List.length).sum
    rw [List.length_append, encodeStroke_length,
      show (sts.flatMap encodeStroke).length = 2 * totalPoints sts from ih,
      List.map_cons, List.sum_cons]
    unfold totalPoints
    ring

theorem slotData_length (o : Option Strokes) : (slotData o).length = 2 * slotLen o := by
  match o with
  | none => rfl
  | some s =>
    by_cases hs : s = []
    · simp [slotData, slotLen, hs]
    · have hsl : slotLen (some s) = min 255 ((glyph_data s).length / 2) := by
        show (if s = [] then 0 else min 255 ((glyph_data s).length / 2)) = _
        rw [if_neg hs]
      have hsd : slotData (some s) =
          (glyph_data s).take (min 255 ((glyph_data s).length / 2) * 2) := by
        show (if s = [] then [] else _) = _
        rw [if_neg hs]
      rw [hsd, hsl, List.length_take]
      have hgl := glyph_data_length s
      omega

theorem sum_map_two_mul (l : List (Option Strokes)) :
    (l.map (fun o => 2 * slotLen o)).sum = 2 * (l.map slotLen).sum := by
  induction l with
  | nil => rfl
  | cons o rest ih =>
    rw [List.map_cons, List.sum_cons, ih, List.map_cons, List.sum_cons]
    ring

/-- Total point count over a section's slots (the `slotLen` sum). -/
def secPts (sec : Sec) : ℕ := (sec.glyphs.map slotLen).sum

theorem data_stream_length (sec : Sec) :
    (data_stream sec).length = 2 * secPts sec := by
  unfold data_stream secPts
  rw [List.length_flatten, List.map_map]
  have hmc : List.map (List.length ∘ slotData) sec.glyphs =
      sec.glyphs.map (fun o => 2 * slotLen o) :=
    List.map_congr_left (fun o _ => slotData_length o)
  rw [hmc, sum_map_two_mul]

theorem blockBytes_length (sec : Sec) :
    (blockBytes sec).length = 4 + sec.glyphs.length + 2 * secPts sec := by
  show ([0, 0] ++ u16le _ ++ length_table sec ++ data_stream sec).length = _
  rw [List.length_append, List.length_append, List.length_append,
    show ([0, 0] : List ℕ).length = 2 from rfl,
    show ∀ n, (u16le n).length = 2 from fun _ => rfl,
    show (length_table sec).length = sec.glyphs.length from List.length_map _ _,
    data_stream_length]

/-- Gap slots of a section. -/
def secGaps (sec : Sec) : ℕ := sec.glyphs.length - someCnt sec.glyphs

/-- Alignment padding required after a section's block. -/
def blkPad (sec : Sec) : ℕ := (4 - (blockBytes sec).length % 4) % 4

theorem genSecsAux_ne_nil (t : ℕ) (rest : List (ℕ × Strokes)) :
    ∀ cur prev, genSecsAux t cur prev rest ≠ [] := by
  induction rest with
  | nil => intro cur prev; simp [genSecsAux]
  | cons p rest ih =>
    intro cur prev
    obtain ⟨c, g⟩ := p
    show (if _ then cur :: genSecsAux t ⟨c, [some g]⟩ c rest else _) ≠ []
    split
    · simp
    · exact ih _ c

theorem getLastD_irrel {l : List Sec} (hl : l ≠ []) (d d' : Sec) :
    l.getLastD d = l.getLastD d' := by
  cases l with
  | nil => exact absurd rfl hl
  | cons a rest => rw [List.getLastD_cons, List.getLastD_cons]

/-! ### The optimizer simulation against the packer segmenter -/

/-- The `simulate_packing` loop is an exact aggregate of the packer's
segmentation: starting from a state describing the open section `cur`,
it finishes with the section count, total gap slots, accumulated
padding of all closed blocks, and the open section being the last
section of `_generate_sections`. -/
theorem simPackAux_matches (t : ℕ) (rest : List (ℕ × Strokes)) :
    ∀ (cur : Sec) (prev : ℕ) (cs ce cp : ℕ),
    simPackAux t (rest.map (fun p => (p.1, 2 * slotLen (some p.2)))) prev
      ⟨cs + 1, ce + secGaps cur, cp, cur.glyphs.length, (blockBytes cur).length⟩ =
    ⟨cs + (genSecsAux t cur prev rest).length,
     ce + ((genSecsAux t cur prev rest).map secGaps).sum,
     cp + (((genSecsAux t cur prev rest).dropLast).map blkPad).sum,
     ((genSecsAux t cur prev rest).getLastD cur).glyphs.length,
     (blockBytes ((genSecsAux t cur prev rest).getLastD cur)).length⟩ := by
  induction rest with
  | nil =>
    intro cur prev cs ce cp
    rw [show genSecsAux t cur prev [] = [cur] from rfl]
    show SimSt.mk _ _ _ _ _ = _
    simp
  | cons p rest ih =>
    intro cur prev cs ce cp
    obtain ⟨c, g⟩ := p
    have hne : genSecsAux t ⟨c, [some g]⟩ c rest ≠ [] := genSecsAux_ne_nil t rest _ c
    rw [List.map_cons,
      show simPackAux t ((c, 2 * slotLen (some g)) :: rest.map
            (fun p => (p.1, 2 * slotLen (some p.2)))) prev
          (⟨cs + 1, ce + secGaps cur, cp, cur.glyphs.length,
            (blockBytes cur).length⟩ : SimSt) =
        (if c - prev - 1 > t ∨
            cur.glyphs.length + (c - prev - 1) + 1 > 256 ∨
            prev >>> 16 ≠ c >>> 16 then
          simPackAux t (rest.map (fun p => (p.1, 2 * slotLen (some p.2)))) c
            ⟨cs + 1 + 1, ce + secGaps cur,
              cp + (4 - (blockBytes cur).length % 4) % 4, 1,
              4 + 1 + 2 * slotLen (some g)⟩
        else
          simPackAux t (rest.map (fun p => (p.1, 2 * slotLen (some p.2)))) c
            ⟨cs + 1, ce + secGaps cur + (c - prev - 1), cp,
              cur.glyphs.length + (c - prev - 1 + 1),
              (blockBytes cur).length + (c - prev - 1) + 1 + 2 * slotLen (some g)⟩)
        from rfl,
      show genSecsAux t cur prev ((c, g) :: rest) =
        (if c - prev - 1 > t ∨ cur.glyphs.length + (c - prev - 1) ≥ 256 ∨
            prev >>> 16 ≠ c >>> 16 then
          cur :: genSecsAux t ⟨c, [some g]⟩ c rest
        else
          genSecsAux t
            ⟨cur.start, cur.glyphs ++ List.replicate (c - prev - 1) none ++ [some g]⟩
            c rest) from rfl]
    by_cases hsp : c - prev - 1 > t ∨ cur.glyphs.length + (c - prev - 1) ≥ 256 ∨
        prev >>> 16 ≠ c >>> 16
    · have hsp' : c - prev - 1 > t ∨
          cur.glyphs.length + (c - prev - 1) + 1 > 256 ∨
          prev >>> 16 ≠ c >>> 16 := by
        rcases hsp with h | h | h
        · exact Or.inl h
        · exact Or.inr (Or.inl (by omega))
        · exact Or.inr (Or.inr h)
      rw [if_pos hsp', if_pos hsp]
      have hb1 : (blockBytes ⟨c, [some g]⟩).length = 4 + 1 + 2 * slotLen (some g) := by
        rw [blockBytes_length]
        have hsp1 : secPts ⟨c, [some g]⟩ = slotLen (some g) := by
          unfold secPts
          simp
        rw [hsp1]
        rfl
      have hstate :
          (⟨cs + 1 + 1, ce + secGaps cur,
            cp + (4 - (blockBytes cur).length % 4) % 4, 1,
            4 + 1 + 2 * slotLen (some g)⟩ : SimSt) =
          ⟨(cs + 1) + 1, (ce + secGaps cur) + secGaps ⟨c, [some g]⟩,
            (cp + blkPad cur),
            (⟨c, [some g]⟩ : Sec).glyphs.length,
            (blockBytes ⟨c, [some g]⟩).length⟩ := by
        unfold blkPad
        rw [hb1, show secGaps (⟨c, [some g]⟩ : Sec) = 0 from rfl,
          show (⟨c, [some g]⟩ : Sec).glyphs.length = 1 from rfl]
        congr 1 <;> omega
      rw [hstate, ih ⟨c, [some g]⟩ c (cs + 1) (ce + secGaps cur) (cp + blkPad cur)]
      rw [List.dropLast_cons_of_ne_nil hne, List.getLastD_cons]
      rw [getLastD_irrel hne cur ⟨c, [some g]⟩]
      simp only [List.length_cons, List.map_cons, List.sum_cons]
      congr 1 <;> omega
    · have hsp' : ¬(c - prev - 1 > t ∨
          cur.glyphs.length + (c - prev - 1) + 1 > 256 ∨
          prev >>> 16 ≠ c >>> 16) := by
        push_neg at hsp ⊢
        exact ⟨hsp.1, by omega, hsp.2.2⟩
      rw [if_neg hsp', if_neg hsp]
      set gap := c - prev - 1 with hgapdef
      set cur' : Sec :=
        ⟨cur.start, cur.glyphs ++ List.replicate gap none ++ [some g]⟩ with hcur'
      have hlen' : cur'.glyphs.length = cur.glyphs.length + gap + 1 := by
        show (cur.glyphs ++ List.replicate gap none ++ [some g]).length = _
        simp only [List.length_append, List.length_replicate, List.length_singleton]
      have hsome' : someCnt cur'.glyphs = someCnt cur.glyphs + 1 := by
        show someCnt (cur.glyphs ++ List.replicate gap none ++ [some g]) = _
        rw [someCnt_append, someCnt_append, someCnt_replicate_none]
        have hsc2 : someCnt [some g] = 1 := rfl
        omega
      have hgaps' : secGaps cur' = secGaps cur + gap := by
        unfold secGaps
        rw [hlen', hsome']
        have := someCnt_le_length cur.glyphs
        omega
      have hpts' : secPts cur' = secPts cur + slotLen (some g) := by
        show (List.map slotLen (cur.glyphs ++ List.replicate gap none ++ [some g])).sum = _
        rw [List.map_append, List.map_append, List.sum_append, List.sum_append]
        rw [List.map_replicate]
        rw [show slotLen none = 0 from rfl]
        simp [secPts]
      have hblen' : (blockBytes cur').length =
          (blockBytes cur).length + gap + 1 + 2 * slotLen (some g) := by
        rw [blockBytes_length, blockBytes_length, hlen', hpts']
        ring
      have hstate :
          (⟨cs + 1, ce + secGaps cur + gap, cp,
            cur.glyphs.length + (gap + 1),
            (blockBytes cur).length + gap + 1 + 2 * slotLen (some g)⟩ : SimSt) =
          ⟨cs + 1, ce + secGaps cur', cp, cur'.glyphs.length,
            (blockBytes cur').length⟩ := by
        rw [hgaps', hlen', hblen']
        congr 1 <;> omega
      rw [hstate, ih cur' c cs ce cp]
      have hne' : genSecsAux t cur' c rest ≠ [] := genSecsAux_ne_nil t rest _ c
      rw [getLastD_irrel hne' cur cur']

/-- Padding accumulated by the packer's block layout loop: the padding
before the first block plus, for each later block, the alignment rest
of the previous block (each block starts 4-byte aligned). -/
theorem buildBlocks_pad (secs : List Sec) :
    ∀ off, secs ≠ [] →
    (buildBlocks off secs).pad =
      (4 - off % 4) % 4 + ((secs.dropLast).map blkPad).sum := by
  induction secs with
  | nil => intro off h; exact absurd rfl h
  | cons a rest ih =>
    intro off _
    show (4 - off % 4) % 4 +
      (buildBlocks (off + (4 - off % 4) % 4 + (blockBytes a).length) rest).pad = _
    cases rest with
    | nil =>
      rw [show (buildBlocks (off + (4 - off % 4) % 4 + (blockBytes a).length)
        ([] : List Sec)).pad = 0 from rfl]
      simp
    | cons b rest' =>
      rw [ih _ (by simp)]
      rw [List.dropLast_cons_of_ne_nil (by simp : (b :: rest' : List Sec) ≠ [])]
      rw [List.map_cons, List.sum_cons]
      have hpb : (4 - (off + (4 - off % 4) % 4 + (blockBytes a).length) % 4) % 4 =
          blkPad a := by
        unfold blkPad
        omega
      rw [hpb]

theorem sum_len_eq_someCnt_add_gaps (l : List Sec) :
    (l.map (fun s => s.glyphs.length)).sum =
      (l.map (fun s => someCnt s.glyphs)).sum + (l.map secGaps).sum := by
  induction l with
  | nil => rfl
  | cons a rest ih =>
    simp only [List.map_cons, List.sum_cons]
    have hle := someCnt_le_length a.glyphs
    have hga : secGaps a = a.glyphs.length - someCnt a.glyphs := rfl
    omega

/-- Structural overhead actually present in a packed file: index entries
(8 bytes per section), block headers (4 bytes per block), length tables
(one byte per slot) and the alignment padding the packer inserts. -/
def structuralOverhead (entries : List (ℕ × Strokes)) : ℕ :=
  let sections := generate_sections 14 entries
  sections.length * 8 + sections.length * 4 +
    (sections.map (fun s => s.glyphs.length)).sum +
    (buildBlocks (12 + sections.length * 8) sections).pad

/-- The trailing alignment rest of the final block, which the optimizer
simulation counts but the packer never writes. -/
def lastBlkPad (entries : List (ℕ × Strokes)) : ℕ :=
  match (generate_sections 14 entries).getLast? with
  | none => 0
  | some s => blkPad s

theorem lastBlkPad_eq (entries : List (ℕ × Strokes))
    (hne : generate_sections 14 entries ≠ []) (d : Sec) :
    lastBlkPad entries = blkPad ((generate_sections 14 entries).getLastD d) := by
  unfold lastBlkPad
  cases hx : (generate_sections 14 entries).getLast? with
  | none => exact absurd (List.getLast?_eq_none_iff.mp hx) hne
  | some s =>
    rw [List.getLastD_eq_getLast?, hx]
    rfl

/-- C2 (amended): the optimizer's simulation at threshold 14 produces
exactly as many sections as the packer's segmenter, and its simulated
cost equals the structural overhead of the file the packer writes
**plus** the trailing alignment rest of the last block (which the
simulation closes out but the packer never pads). -/
theorem C2_sim_vs_packer (entries : List (ℕ × Strokes))
    (hsort : (entries.map Prod.fst).Pairwise (· < ·)) (hne : entries ≠ []) :
    (simulate_packing 14 (entries.map (fun p => (p.1, 2 * slotLen (some p.2))))).2 =
      (generate_sections 14 entries).length ∧
    (simulate_packing 14 (entries.map (fun p => (p.1, 2 * slotLen (some p.2))))).1 =
      structuralOverhead entries + lastBlkPad entries := by
  match entries, hne with
  | (c0, g0) :: rest, _ =>
    have hb1 : (blockBytes ⟨c0, [some g0]⟩).length = 4 + 1 + 2 * slotLen (some g0) := by
      rw [blockBytes_length]
      rw [show secPts ⟨c0, [some g0]⟩ = slotLen (some g0) from by unfold secPts; simp]
      rfl
    have h0 := simPackAux_matches 14 rest ⟨c0, [some g0]⟩ c0 0 0 0
    have e1 : (⟨0 + 1, 0 + secGaps ⟨c0, [some g0]⟩, 0,
        (⟨c0, [some g0]⟩ : Sec).glyphs.length,
        (blockBytes ⟨c0, [some g0]⟩).length⟩ : SimSt) =
        ⟨1, 0, 0, 1, 4 + 1 + 2 * slotLen (some g0)⟩ := by
      rw [hb1, show secGaps (⟨c0, [some g0]⟩ : Sec) = 0 from rfl,
        show (⟨c0, [some g0]⟩ : Sec).glyphs.length = 1 from rfl]
    rw [e1] at h0
    simp only [Nat.zero_add] at h0
    set R := genSecsAux 14 ⟨c0, [some g0]⟩ c0 rest with hRdef
    have hRne : R ≠ [] := genSecsAux_ne_nil 14 rest _ c0
    have hRgen : generate_sections 14 ((c0, g0) :: rest) = R := rfl
    obtain ⟨_, hsum, _, _⟩ :=
      generate_sections_main 14 ((c0, g0) :: rest) hsort
    rw [hRgen] at hsum
    have hlens := sum_len_eq_someCnt_add_gaps R
    have hpad := buildBlocks_pad R (12 + R.length * 8) hRne
    have hpad0 : (4 - (12 + R.length * 8) % 4) % 4 = 0 := by omega
    rw [hpad0] at hpad
    have hlast := lastBlkPad_eq ((c0, g0) :: rest) (by rw [hRgen]; exact hRne)
      ⟨c0, [some g0]⟩
    rw [hRgen] at hlast
    constructor
    · show (simPackAux 14 (rest.map (fun p => (p.1, 2 * slotLen (some p.2)))) c0
        ⟨1, 0, 0, 1, 4 + 1 + 2 * slotLen (some g0)⟩).secs = R.length
      rw [h0]
    · show (simPackAux 14 (rest.map (fun p => (p.1, 2 * slotLen (some p.2)))) c0
          ⟨1, 0, 0, 1, 4 + 1 + 2 * slotLen (some g0)⟩).secs * 12 +
        ((((c0, g0) :: rest).map (fun p => (p.1, 2 * slotLen (some p.2)))).length +
          (simPackAux 14 (rest.map (fun p => (p.1, 2 * slotLen (some p.2)))) c0
            ⟨1, 0, 0, 1, 4 + 1 + 2 * slotLen (some g0)⟩).empty) +
        ((simPackAux 14 (rest.map (fun p => (p.1, 2 * slotLen (some p.2)))) c0
            ⟨1, 0, 0, 1, 4 + 1 + 2 * slotLen (some g0)⟩).pad +
          (4 - (simPackAux 14 (rest.map (fun p => (p.1, 2 * slotLen (some p.2)))) c0
            ⟨1, 0, 0, 1, 4 + 1 + 2 * slotLen (some g0)⟩).blen % 4) % 4) =
        structuralOverhead ((c0, g0) :: rest) + lastBlkPad ((c0, g0) :: rest)
      rw [h0]
      show R.length * 12 + ((rest.map (fun p => (p.1, 2 * slotLen (some p.2)))).length + 1 +
        (R.map secGaps).sum) +
        ((R.dropLast.map blkPad).sum + blkPad (R.getLastD ⟨c0, [some g0]⟩)) = _
      rw [← hlast]
      show _ = R.length * 8 + R.length * 4 +
        (R.map (fun s => s.glyphs.length)).sum +
        (buildBlocks (12 + R.length * 8) R).pad + lastBlkPad ((c0, g0) :: rest)
      rw [hpad, hlens, hsum]
      simp only [List.length_cons, List.length_map]
      omega

/-- Witness for C2 (amended) at the concrete two-glyph map
`{0: [[(0,0)]], 3: [[(1,1)]]}`. -/
theorem C2_witness :
    (simulate_packing 14 ([(0, [[((0 : ℚ), (0 : ℚ))]]), (3, [[((1 : ℚ), (1 : ℚ))]])].map
        (fun p => (p.1, 2 * slotLen (some p.2))))).2 =
      (generate_sections 14 [(0, [[((0 : ℚ), (0 : ℚ))]]), (3, [[((1 : ℚ), (1 : ℚ))]])]).length ∧
    (simulate_packing 14 ([(0, [[((0 : ℚ), (0 : ℚ))]]), (3, [[((1 : ℚ), (1 : ℚ))]])].map
        (fun p => (p.1, 2 * slotLen (some p.2))))).1 =
      structuralOverhead [(0, [[((0 : ℚ), (0 : ℚ))]]), (3, [[((1 : ℚ), (1 : ℚ))]])] +
        lastBlkPad [(0, [[((0 : ℚ), (0 : ℚ))]]), (3, [[((1 : ℚ), (1 : ℚ))]])] :=
  C2_sim_vs_packer [(0, [[((0 : ℚ), (0 : ℚ))]]), (3, [[((1 : ℚ), (1 : ℚ))]])]
    (by decide) (by decide)

/-- Counterexample for C2 as stated: for the one-glyph map
`{0: [[(0,0)]]}` (one point, block size `4 + 1 + 2 = 7`), the simulated
cost is 14 but the structural overhead of the file the packer actually
writes is 13 — the simulation pads the final block to a 4-byte
boundary, the packer does not. -/
theorem C2_counterexample :
    (simulate_packing 14 ([(0, [[((0 : ℚ), (0 : ℚ))]])].map
        (fun p => (p.1, 2 * slotLen (some p.2))))).1 = 14 ∧
    structuralOverhead [(0, [[((0 : ℚ), (0 : ℚ))]])] = 13 ∧
    (simulate_packing 14 ([(0, [[((0 : ℚ), (0 : ℚ))]])].map
        (fun p => (p.1, 2 * slotLen (some p.2))))).1 ≠
      structuralOverhead [(0, [[((0 : ℚ), (0 : ℚ))]])] :=
  ⟨by decide, by decide, by decide⟩

/-! ### Index entry reconstruction -/

/-- The pointer value the parser reconstructs from a stored 24-bit
block pointer: the low 24 bits of `ptr >> 2`, shifted back. -/
def recon24 (p : ℕ) : ℕ := ((p >>> 2) % 16777216) <<< 2

theorem lor_eq_add_of_lt {a b k : ℕ} (hb : b < 2 ^ k) :
    (a <<< k) ||| b = a * 2 ^ k + b := by
  rw [Nat.shiftLeft_eq, show a * 2 ^ k = 2 ^ k * a from Nat.mul_comm _ _]
  exact (Nat.mul_add_lt_is_or hb a).symm

theorem shiftRight16_eq (x : ℕ) : x >>> 16 = x / 65536 := by
  rw [Nat.shiftRight_eq_div_pow]

/-- Decoding an index entry the packer wrote recovers the section start
(for starts below the 21-bit limit), the slot count, and the low 26
bits of the block offset. -/
theorem readEntry_indexEntry (sec : Sec) (ptr : ℕ)
    (hstart : sec.start < 2097152) (h1 : 1 ≤ sec.glyphs.length) :
    readEntryBytes (indexEntry sec ptr) =
      ⟨sec.start, sec.glyphs.length, recon24 ptr⟩ := by
  have hy : (sec.start >>> 16) &&& 31 = sec.start >>> 16 := by
    have hlt : sec.start >>> 16 < 2 ^ 5 := by
      rw [shiftRight16_eq]
      omega
    rw [show (31 : ℕ) = 2 ^ 5 - 1 from rfl]
    exact Nat.and_pow_two_sub_one_of_lt_two_pow hlt
  have hprops : (((sec.start >>> 16) &&& 31) <<< 11) < 65536 := by
    have h31 : (sec.start >>> 16) &&& 31 ≤ 31 := Nat.and_le_right
    rw [Nat.shiftLeft_eq]
    norm_num
    omega
  have hlow : sec.start &&& 65535 = sec.start % 65536 := by
    rw [show (65535 : ℕ) = 2 ^ 16 - 1 from rfl]
    exact Nat.and_pow_two_sub_one_eq_mod _ _
  set P := ((sec.start >>> 16) &&& 31) <<< 11 with hPdef
  set L := sec.start &&& 65535 with hLdef
  set q := ptr >>> 2 with hqdef
  have hLlt : L < 65536 := by rw [hlow]; omega
  have hPrec : P % 256 + 256 * (P / 256 % 256) = P := by omega
  have hLrec : L % 256 + 256 * (L / 256 % 256) = L := by omega
  have hshift : (P >>> 11) = (sec.start >>> 16) &&& 31 := by
    rw [hPdef, Nat.shiftLeft_eq, Nat.shiftRight_eq_div_pow]
    exact Nat.mul_div_cancel _ (by norm_num)
  have hplane : (P >>> 11) &&& 31 = sec.start >>> 16 := by
    rw [hshift, Nat.and_assoc, show (31 : ℕ) &&& 31 = 31 from rfl, hy]
  have hfull : ((sec.start >>> 16) <<< 16) ||| L = sec.start := by
    rw [hlow, lor_eq_add_of_lt
      (show sec.start % 65536 < 2 ^ 16 from by norm_num [Nat.mod_lt]),
      shiftRight16_eq, show (2 : ℕ) ^ 16 = 65536 from by norm_num]
    omega
  have habs : (q % 256) ||| ((q / 256 % 256) <<< 8) ||| ((q / 65536 % 256) <<< 16) =
      q % 16777216 := by
    rw [Nat.or_comm (q % 256) _,
      lor_eq_add_of_lt (show q % 256 < 2 ^ 8 from by norm_num [Nat.mod_lt]),
      Nat.or_comm, lor_eq_add_of_lt
        (show q / 256 % 256 * 2 ^ 8 + q % 256 < 2 ^ 16 from by
          have hq1 : q / 256 % 256 < 256 := Nat.mod_lt _ (by norm_num)
          have hq2 : q % 256 < 256 := Nat.mod_lt _ (by norm_num)
          norm_num
          omega)]
    have hq3 : q / 65536 % 256 < 256 := Nat.mod_lt _ (by norm_num)
    norm_num
    omega
  show PSec.mk
      (((((P % 256 + 256 * (P / 256 % 256)) >>> 11) &&& 31) <<< 16) |||
        (L % 256 + 256 * (L / 256 % 256)))
      ((sec.glyphs.length - 1) + 1)
      (((q % 256) ||| ((q / 256 % 256) <<< 8) ||| ((q / 65536 % 256) <<< 16)) <<< 2) =
    PSec.mk sec.start sec.glyphs.length (recon24 ptr)
  rw [hPrec, hLrec, hplane, hfull, habs,
    show sec.glyphs.length - 1 + 1 = sec.glyphs.length from by omega]
  rfl

/-! ### Layout of the packed file -/

theorem indexEntry_length (sec : Sec) (ptr : ℕ) : (indexEntry sec ptr).length = 8 := rfl

/-- The parser's index loop over a buffer that physically contains the
8-byte entries at the right offset returns exactly their decodings. -/
theorem parseEntriesAux_concat (es : List (List ℕ)) :
    ∀ (P Q : List ℕ), (∀ e ∈ es, e.length = 8) →
    parseEntriesAux (P ++ (es.flatten ++ Q)) P.length es.length =
      some (es.map readEntryBytes) := by
  induction es with
  | nil => intro P Q _; rfl
  | cons e es ih =>
    intro P Q he
    have he8 : e.length = 8 := he e (List.mem_cons_self _ _)
    simp only [List.length_cons, List.map_cons]
    have hraw : ((P ++ (List.flatten (e :: es) ++ Q)).drop P.length).take 8 = e := by
      rw [show List.flatten (e :: es) ++ Q = (e ++ (es.flatten ++ Q)) from by
          rw [List.flatten_cons, List.append_assoc],
        List.drop_left, List.take_left' he8]
    rw [show parseEntriesAux (P ++ (List.flatten (e :: es) ++ Q)) P.length
          (es.length + 1) =
        (if (((P ++ (List.flatten (e :: es) ++ Q)).drop P.length).take 8).length = 8 then
          match parseEntriesAux (P ++ (List.flatten (e :: es) ++ Q)) (P.length + 8)
              es.length with
          | some rest =>
            some (readEntryBytes
              (((P ++ (List.flatten (e :: es) ++ Q)).drop P.length).take 8) :: rest)
          | none => none
        else none) from rfl]
    rw [hraw, if_pos he8]
    have hD : P ++ (List.flatten (e :: es) ++ Q) =
        (P ++ e) ++ (es.flatten ++ Q) := by
      rw [List.flatten_cons]
      simp [List.append_assoc]
    have hPl : P.length + 8 = (P ++ e).length := by simp [he8]
    rw [hD, hPl, ih (P ++ e) Q (fun x hx => he x (List.mem_cons_of_mem e hx))]

/-- Offset-12 form of `parseEntriesAux_concat`, matching the parser's
fixed index offset. -/
theorem parseEntriesAux_concat12 (es : List (List ℕ)) (P Q : List ℕ)
    (hP : P.length = 12) (he : ∀ e ∈ es, e.length = 8) (k : ℕ)
    (hk : k = es.length) :
    parseEntriesAux (P ++ (es.flatten ++ Q)) 12 k = some (es.map readEntryBytes) := by
  subst hk
  rw [← hP]
  exact parseEntriesAux_concat es P Q he

theorem buildBlocks_ptrs_length (secs : List Sec) :
    ∀ off, (buildBlocks off secs).ptrs.length = secs.length := by
  induction secs with
  | nil => intro off; rfl
  | cons a rest ih =>
    intro off
    show (_ :: (buildBlocks _ rest).ptrs).length = rest.length + 1
    rw [List.length_cons, ih]

theorem buildBlocks_idx_eq (secs : List Sec) :
    ∀ off, (buildBlocks off secs).idx =
      List.zipWith indexEntry secs (buildBlocks off secs).ptrs := by
  induction secs with
  | nil => intro off; rfl
  | cons a rest ih =>
    intro off
    show indexEntry a _ :: (buildBlocks _ rest).idx =
      List.zipWith indexEntry (a :: rest) (_ :: (buildBlocks _ rest).ptrs)
    rw [List.zipWith_cons_cons, ih]

theorem buildBlocks_idx_flatten_length (secs : List Sec) :
    ∀ off, (buildBlocks off secs).idx.flatten.length = 8 * secs.length := by
  induction secs with
  | nil => intro off; rfl
  | cons a rest ih =>
    intro off
    show (List.flatten (indexEntry a _ :: (buildBlocks _ rest).idx)).length =
      8 * (rest.length + 1)
    rw [List.flatten_cons, List.length_append, indexEntry_length, ih]
    ring

theorem buildBlocks_stop_eq (secs : List Sec) :
    ∀ off, (buildBlocks off secs).stop = off + (buildBlocks off secs).bin.length := by
  induction secs with
  | nil => intro off; simp [buildBlocks]
  | cons a rest ih =>
    intro off
    have h1 : (buildBlocks off (a :: rest)).stop =
        (buildBlocks (off + (4 - off % 4) % 4 + (blockBytes a).length) rest).stop := rfl
    have h2 : (buildBlocks off (a :: rest)).bin =
        List.replicate ((4 - off % 4) % 4) 0 ++ blockBytes a ++
          (buildBlocks (off + (4 - off % 4) % 4 + (blockBytes a).length) rest).bin := rfl
    rw [h1, h2, ih]
    simp only [List.length_append, List.length_replicate]
    omega

theorem buildBlocks_ptrs_facts (secs : List Sec) :
    ∀ off, off ≤ (buildBlocks off secs).stop ∧
    ∀ p ∈ (buildBlocks off secs).ptrs,
      4 ∣ p ∧ off ≤ p ∧ p + 4 ≤ (buildBlocks off secs).stop := by
  induction secs with
  | nil => intro off; exact ⟨le_refl _, by simp [buildBlocks]⟩
  | cons a rest ih =>
    intro off
    obtain ⟨ihs, ihp⟩ := ih (off + (4 - off % 4) % 4 + (blockBytes a).length)
    have hblk : (blockBytes a).length = 4 + a.glyphs.length + 2 * secPts a :=
      blockBytes_length a
    constructor
    · show off ≤ (buildBlocks (off + (4 - off % 4) % 4 + (blockBytes a).length) rest).stop
      omega
    · intro p hp
      rcases List.mem_cons.mp hp with heq | hp
      · subst heq
        refine ⟨by omega, by omega, ?_⟩
        show off + (4 - off % 4) % 4 + 4 ≤
          (buildBlocks (off + (4 - off % 4) % 4 + (blockBytes a).length) rest).stop
        omega
      · obtain ⟨hd, hle, hstop⟩ := ihp p hp
        exact ⟨hd, by omega, hstop⟩

theorem buildBlocks_content (secs : List Sec) :
    ∀ off (P : List ℕ), P.length = off →
    ∀ k, k < secs.length →
    ∃ tail, (P ++ (buildBlocks off secs).bin).drop
        ((buildBlocks off secs).ptrs.getD k 0) =
      blockBytes (secs.getD k ⟨0, []⟩) ++ tail := by
  induction secs with
  | nil => intro off P hP k hk; exact absurd hk (by simp)
  | cons a rest ih =>
    intro off P hP k hk
    show ∃ tail, (P ++ (List.replicate ((4 - off % 4) % 4) 0 ++ blockBytes a ++
        (buildBlocks (off + (4 - off % 4) % 4 + (blockBytes a).length) rest).bin)).drop
        (((off + (4 - off % 4) % 4) ::
          (buildBlocks (off + (4 - off % 4) % 4 + (blockBytes a).length) rest).ptrs).getD
            k 0) = blockBytes ((a :: rest).getD k ⟨0, []⟩) ++ tail
    match k with
    | 0 =>
      refine ⟨(buildBlocks (off + (4 - off % 4) % 4 + (blockBytes a).length) rest).bin, ?_⟩
      rw [show (P ++ (List.replicate ((4 - off % 4) % 4) 0 ++ blockBytes a ++
          (buildBlocks (off + (4 - off % 4) % 4 + (blockBytes a).length) rest).bin)) =
        ((P ++ List.replicate ((4 - off % 4) % 4) 0) ++ (blockBytes a ++
          (buildBlocks (off + (4 - off % 4) % 4 + (blockBytes a).length) rest).bin)) from by
          simp [List.append_assoc]]
      rw [show ((off + (4 - off % 4) % 4) ::
          (buildBlocks (off + (4 - off % 4) % 4 + (blockBytes a).length) rest).ptrs).getD
            0 0 = off + (4 - off % 4) % 4 from rfl]
      rw [List.drop_left' (by simp [hP])]
      rfl
    | k + 1 =>
      have hres := ih (off + (4 - off % 4) % 4 + (blockBytes a).length)
        (P ++ List.replicate ((4 - off % 4) % 4) 0 ++ blockBytes a)
        (by simp [hP]; omega) k (by simp at hk; omega)
      obtain ⟨tail, htail⟩ := hres
      refine ⟨tail, ?_⟩
      rw [show (P ++ (List.replicate ((4 - off % 4) % 4) 0 ++ blockBytes a ++
          (buildBlocks (off + (4 - off % 4) % 4 + (blockBytes a).length) rest).bin)) =
        ((P ++ List.replicate ((4 - off % 4) % 4) 0 ++ blockBytes a) ++
          (buildBlocks (off + (4 - off % 4) % 4 + (blockBytes a).length) rest).bin) from by
          simp [List.append_assoc]]
      exact htail

theorem buildBlocks_idx_length (secs : List Sec) :
    ∀ off, (buildBlocks off secs).idx.length = secs.length := by
  induction secs with
  | nil => intro off; rfl
  | cons a rest ih =>
    intro off
    show (indexEntry a _ :: (buildBlocks _ rest).idx).length = rest.length + 1
    rw [List.length_cons, ih]

theorem buildBlocks_idx_mem_length (secs : List Sec) :
    ∀ off, ∀ e ∈ (buildBlocks off secs).idx, e.length = 8 := by
  induction secs with
  | nil => intro off e he; exact absurd he (by simp [buildBlocks])
  | cons a rest ih =>
    intro off e he
    rcases List.mem_cons.mp he with heq | he
    · subst heq; exact indexEntry_length a _
    · exact ih _ e he

theorem zipWith_congr_mem {α β γ : Type} (f g : α → β → γ) (la : List α) :
    ∀ (lb : List β), (∀ a ∈ la, ∀ b, f a b = g a b) →
    List.zipWith f la lb = List.zipWith g la lb := by
  induction la with
  | nil => intro lb _; simp
  | cons a as ih =>
    intro lb h
    cases lb with
    | nil => simp
    | cons b bs =>
      rw [List.zipWith_cons_cons, List.zipWith_cons_cons,
        h a (List.mem_cons_self _ _) b,
        ih bs (fun x hx b' => h x (List.mem_cons_of_mem a hx) b')]

/-- Unpacking of a successful `finish`: the guards hold and the file is
the concatenation of header, index and block area. -/
theorem finish_spec (fontId : ℕ) (entries : List (ℕ × Strokes)) (file : List ℕ)
    (hfin : finish fontId entries = some file) :
    generate_sections 14 entries ≠ [] ∧
    (generate_sections 14 entries).length < 65536 ∧
    fontId < 4294967296 ∧
    (buildBlocks (12 + (generate_sections 14 entries).length * 8)
      (generate_sections 14 entries)).stop < 17179869184 ∧
    file = magic ++ u32le fontId ++ u16le 0 ++
      u16le (generate_sections 14 entries).length ++
      (buildBlocks (12 + (generate_sections 14 entries).length * 8)
        (generate_sections 14 entries)).idx.flatten ++
      (buildBlocks (12 + (generate_sections 14 entries).length * 8)
        (generate_sections 14 entries)).bin := by
  simp only [finish] at hfin
  by_cases hemp : (generate_sections 14 entries).isEmpty
  · rw [if_pos hemp] at hfin
    exact absurd hfin (by simp)
  · rw [if_neg hemp] at hfin
    by_cases hg : (generate_sections 14 entries).length < 65536 ∧
        fontId < 4294967296 ∧
        (buildBlocks (12 + (generate_sections 14 entries).length * 8)
          (generate_sections 14 entries)).stop < 17179869184
    · rw [if_pos hg] at hfin
      obtain ⟨h1, h2, h3⟩ := hg
      refine ⟨fun hcon => hemp (by simp [hcon]), h1, h2, h3, ?_⟩
      exact (Option.some.inj hfin).symm
    · rw [if_neg hg] at hfin
      exact absurd hfin (by simp)

/-- Loading a file the packer wrote succeeds and yields, per section,
the start codepoint, the slot count and the 24-bit-reconstructed block
pointer. -/
theorem load_finish (fontId : ℕ) (entries : List (ℕ × Strokes)) (file : List ℕ)
    (hfin : finish fontId entries = some file)
    (hinv : ∀ sec ∈ generate_sections 14 entries,
      sec.start < 2097152 ∧ 1 ≤ sec.glyphs.length) :
    load file = some (List.zipWith
      (fun s p => PSec.mk s.start s.glyphs.length (recon24 p))
      (generate_sections 14 entries) (blockPtrs entries)) := by
  obtain ⟨hne, hN, hfid, hstop, hfile⟩ := finish_spec fontId entries file hfin
  subst hfile
  unfold load
  rw [if_neg (show ¬((magic ++ u32le fontId ++ u16le 0 ++
      u16le (generate_sections 14 entries).length ++
      (buildBlocks (12 + (generate_sections 14 entries).length * 8)
        (generate_sections 14 entries)).idx.flatten ++
      (buildBlocks (12 + (generate_sections 14 entries).length * 8)
        (generate_sections 14 entries)).bin).take 4 ≠ magic) from by
    intro hcon
    exact hcon rfl)]
  rw [if_neg (show ¬(((magic ++ u32le fontId ++ u16le 0 ++
      u16le (generate_sections 14 entries).length ++
      (buildBlocks (12 + (generate_sections 14 entries).length * 8)
        (generate_sections 14 entries)).idx.flatten ++
      (buildBlocks (12 + (generate_sections 14 entries).length * 8)
        (generate_sections 14 entries)).bin).drop 4).take 8).length ≠ 8 from by
    intro hcon
    exact hcon rfl)]
  have hcnt : (((magic ++ u32le fontId ++ u16le 0 ++
      u16le (generate_sections 14 entries).length ++
      (buildBlocks (12 + (generate_sections 14 entries).length * 8)
        (generate_sections 14 entries)).idx.flatten ++
      (buildBlocks (12 + (generate_sections 14 entries).length * 8)
        (generate_sections 14 entries)).bin).drop 4).take 8).getD 6 0 +
      256 * (((magic ++ u32le fontId ++ u16le 0 ++
      u16le (generate_sections 14 entries).length ++
      (buildBlocks (12 + (generate_sections 14 entries).length * 8)
        (generate_sections 14 entries)).idx.flatten ++
      (buildBlocks (12 + (generate_sections 14 entries).length * 8)
        (generate_sections 14 entries)).bin).drop 4).take 8).getD 7 0 =
      (generate_sections 14 entries).length := by
    rw [show (((magic ++ u32le fontId ++ u16le 0 ++
      u16le (generate_sections 14 entries).length ++
      (buildBlocks (12 + (generate_sections 14 entries).length * 8)
        (generate_sections 14 entries)).idx.flatten ++
      (buildBlocks (12 + (generate_sections 14 entries).length * 8)
        (generate_sections 14 entries)).bin).drop 4).take 8).getD 6 0 =
      (generate_sections 14 entries).length % 256 from rfl]
    rw [show (((magic ++ u32le fontId ++ u16le 0 ++
      u16le (generate_sections 14 entries).length ++
      (buildBlocks (12 + (generate_sections 14 entries).length * 8)
        (generate_sections 14 entries)).idx.flatten ++
      (buildBlocks (12 + (generate_sections 14 entries).length * 8)
        (generate_sections 14 entries)).bin).drop 4).take 8).getD 7 0 =
      (generate_sections 14 entries).length / 256 % 256 from rfl]
    omega
  rw [hcnt]
  have hsplit : magic ++ u32le fontId ++ u16le 0 ++
      u16le (generate_sections 14 entries).length ++
      (buildBlocks (12 + (generate_sections 14 entries).length * 8)
        (generate_sections 14 entries)).idx.flatten ++
      (buildBlocks (12 + (generate_sections 14 entries).length * 8)
        (generate_sections 14 entries)).bin =
      (magic ++ u32le fontId ++ u16le 0 ++
        u16le (generate_sections 14 entries).length) ++
      ((buildBlocks (12 + (generate_sections 14 entries).length * 8)
        (generate_sections 14 entries)).idx.flatten ++
      (buildBlocks (12 + (generate_sections 14 entries).length * 8)
        (generate_sections 14 entries)).bin) := by
    simp [List.append_assoc]
  rw [hsplit]
  rw [parseEntriesAux_concat12
    (buildBlocks (12 + (generate_sections 14 entries).length * 8)
      (generate_sections 14 entries)).idx
    (magic ++ u32le fontId ++ u16le 0 ++ u16le (generate_sections 14 entries).length)
    (buildBlocks (12 + (generate_sections 14 entries).length * 8)
      (generate_sections 14 entries)).bin
    rfl (buildBlocks_idx_mem_length _ _) _ (buildBlocks_idx_length _ _).symm]
  rw [buildBlocks_idx_eq]
  rw [List.map_zipWith]
  rw [zipWith_congr_mem _ _ _ _
    (fun s hs p => readEntry_indexEntry s p (hinv s hs).1 (hinv s hs).2)]
  rfl

/-- C10: for every codepoint, calling `get_strokes` on a parser whose
data buffer is still `None` (no successful load) returns the empty
stroke sequence rather than failing. -/
theorem C10_get_strokes_unloaded (st : ParserState) (h : st.data = none) (u : ℕ) :
    get_strokes st u = .ok [] := by
  unfold get_strokes
  rw [h]

/-- Witness for C10 at the freshly constructed parser and codepoint 65. -/
theorem C10_witness : get_strokes initParser 65 = .ok [] :=
  C10_get_strokes_unloaded initParser rfl 65

/-! ### C9: malformed header rejection in `load` -/

/-- C9: for every buffer shorter than 12 bytes or whose first 4 bytes
differ from the magic `VECF`, `load` fails (returns `False`, embedded as
`none`) and leaves no sections loaded. -/
theorem C9_load_malformed (buf : List ℕ)
    (h : buf.length < 12 ∨ buf.take 4 ≠ magic) :
    load buf = none ∧ (parseFile buf).sections = [] := by
  have hload : load buf = none := by
    unfold load
    by_cases hm : buf.take 4 = magic
    · have hlen : buf.length < 12 := by
        rcases h with h | h
        · exact h
        · exact absurd hm h
      have hshort : ((buf.drop 4).take 8).length ≠ 8 := by
        simp only [List.length_take, List.length_drop]
        omega
      simp only [List.length_take, List.length_drop] at hshort
      simp [hm]
      intro hctr
      exact absurd hctr (by omega)
    · simp [hm]
  exact ⟨hload, by simp [parseFile, hload]⟩

/-- Witness for C9 at the concrete 3-byte buffer `[86, 69, 67]`. -/
theorem C9_witness :
    load [86, 69, 67] = none ∧ (parseFile [86, 69, 67]).sections = [] :=
  C9_load_malformed [86, 69, 67] (Or.inl (by decide))

/-! ### C4: gap encoding of `{0: glyph_a, 2: glyph_b}` -/

/-- C4: packing `{0: glyph_a, 2: glyph_b}` with gap threshold `≥ 1`
yields one section with slot count 3 and length table
`[len_a, 0, len_b]`; with threshold 0 it yields two sections. -/
theorem C4_gap_encoding (a b : Strokes) (t : ℕ) (ht : 1 ≤ t) :
    generate_sections t [(0, a), (2, b)] = [⟨0, [some a, none, some b]⟩] ∧
    length_table ⟨0, [some a, none, some b]⟩ =
      [slotLen (some a), 0, slotLen (some b)] ∧
    (generate_sections 0 [(0, a), (2, b)]).length = 2 := by
  refine ⟨?_, by simp [length_table, slotLen], ?_⟩
  · show genSecsAux t ⟨0, [some a]⟩ 0 [(2, b)] = _
    unfold genSecsAux
    rw [if_neg (by simp; omega)]
    rfl
  · show (genSecsAux 0 ⟨0, [some a]⟩ 0 [(2, b)]).length = 2
    unfold genSecsAux
    rw [if_pos (by left; decide)]
    rfl

/-- Witness for C4 at two concrete one-point glyphs and threshold 14. -/
theorem C4_witness :
    generate_sections 14 [(0, [[((0 : ℚ), (0 : ℚ))]]), (2, [[((1 : ℚ), (1 : ℚ))]])] =
      [⟨0, [some [[((0 : ℚ), (0 : ℚ))]], none, some [[((1 : ℚ), (1 : ℚ))]]]⟩] ∧
    length_table ⟨0, [some [[((0 : ℚ), (0 : ℚ))]], none, some [[((1 : ℚ), (1 : ℚ))]]]⟩ =
      [slotLen (some [[((0 : ℚ), (0 : ℚ))]]), 0, slotLen (some [[((1 : ℚ), (1 : ℚ))]])] ∧
    (generate_sections 0 [(0, [[((0 : ℚ), (0 : ℚ))]]), (2, [[((1 : ℚ), (1 : ℚ))]])]).length = 2 :=
  C4_gap_encoding [[((0 : ℚ), (0 : ℚ))]] [[((1 : ℚ), (1 : ℚ))]] 14 (by decide)

/-! ### C7: the threshold scan returns the first minimum -/

/-- Behaviour of the `min(..., key=...)` fold: the result is an element
of the scanned prefix attaining the minimal cost, and among equal costs
the earliest (smallest) threshold wins. -/
theorem foldl_pickMin_spec (tl : List TRes) (init : TRes)
    (hlt : ∀ r ∈ tl, init.threshold < r.threshold)
    (hsorted : tl.Pairwise (fun a b => a.threshold < b.threshold)) :
    (tl.foldl pickMin init = init ∨ tl.foldl pickMin init ∈ tl) ∧
    (tl.foldl pickMin init).cost ≤ init.cost ∧
    (∀ r ∈ tl, (tl.foldl pickMin init).cost ≤ r.cost) ∧
    (init.cost = (tl.foldl pickMin init).cost →
      (tl.foldl pickMin init).threshold ≤ init.threshold) ∧
    (∀ r ∈ tl, r.cost = (tl.foldl pickMin init).cost →
      (tl.foldl pickMin init).threshold ≤ r.threshold) := by
  induction tl generalizing init with
  | nil => simp
  | cons h t ih =>
    have hsorted' : t.Pairwise (fun a b => a.threshold < b.threshold) :=
      hsorted.sublist (List.sublist_cons_self h t)
    have hh : ∀ r ∈ t, h.threshold < r.threshold := fun r hr =>
      (List.pairwise_cons.mp hsorted).1 r hr
    have hlt' : ∀ r ∈ t, (pickMin init h).threshold < r.threshold := by
      intro r hr
      unfold pickMin
      split
      · exact hh r hr
      · exact hlt r (List.mem_cons_of_mem h hr)
    obtain ⟨hmem, hcost, hall, htie0, htie⟩ := ih (pickMin init h) hlt' hsorted'
    have hpc : (pickMin init h).cost ≤ init.cost ∧ (pickMin init h).cost ≤ h.cost := by
      unfold pickMin; split <;> omega
    refine ⟨?_, ?_, ?_, ?_, ?_⟩
    · rcases hmem with hmem | hmem
      · rw [List.foldl_cons, hmem]
        unfold pickMin
        split
        · exact Or.inr (List.mem_cons_self h t)
        · exact Or.inl rfl
      · exact Or.inr (List.mem_cons_of_mem h hmem)
    · rw [List.foldl_cons]; omega
    · intro r hr
      rw [List.foldl_cons]
      rcases List.mem_cons.mp hr with rfl | hr
      · omega
      · exact hall r hr
    · intro he
      rw [List.foldl_cons] at he ⊢
      by_cases hc : h.cost < init.cost
      · have hpe : pickMin init h = h := by unfold pickMin; rw [if_pos hc]
        rw [hpe] at he hcost ⊢
        omega
      · have hpe : pickMin init h = init := by unfold pickMin; rw [if_neg hc]
        rw [hpe] at he htie0 ⊢
        exact htie0 he
    · intro r hr he
      rw [List.foldl_cons] at he ⊢
      rcases List.mem_cons.mp hr with rfl | hr
      · by_cases hc : r.cost < init.cost
        · have hpe : pickMin init r = r := by unfold pickMin; rw [if_pos hc]
          rw [hpe] at he htie0 ⊢
          exact htie0 he
        · have hpe : pickMin init r = init := by unfold pickMin; rw [if_neg hc]
          rw [hpe] at he htie0 hcost ⊢
          have hlt1 := hlt r (List.mem_cons_self r t)
          have hic : init.cost = (t.foldl pickMin init).cost := by omega
          have := htie0 hic
          omega
      · exact htie r hr he

/-- C7: the scan over thresholds 1..64 returns a scanned result of
minimal simulated cost, and among cost ties the smallest threshold. -/
theorem C7_best_threshold (chars : List (ℕ × ℕ)) :
    best_opt chars ∈ scan_results chars ∧
    (∀ r ∈ scan_results chars, (best_opt chars).cost ≤ r.cost) ∧
    (∀ r ∈ scan_results chars, r.cost = (best_opt chars).cost →
      (best_opt chars).threshold ≤ r.threshold) := by
  have hsc : scan_results chars =
      (⟨1, (simulate_packing 1 chars).1, (simulate_packing 1 chars).2⟩ : TRes) ::
        (List.range' 2 63).map
          (fun t => ⟨t, (simulate_packing t chars).1, (simulate_packing t chars).2⟩) := by
    unfold scan_results
    rw [List.range'_succ]
    rfl
  have hbo : best_opt chars =
      ((List.range' 2 63).map
          (fun t => (⟨t, (simulate_packing t chars).1, (simulate_packing t chars).2⟩ : TRes))).foldl
        pickMin ⟨1, (simulate_packing 1 chars).1, (simulate_packing 1 chars).2⟩ := by
    unfold best_opt
    rw [hsc]
  have hlt : ∀ r ∈ (List.range' 2 63).map
      (fun t => (⟨t, (simulate_packing t chars).1, (simulate_packing t chars).2⟩ : TRes)),
      (⟨1, (simulate_packing 1 chars).1, (simulate_packing 1 chars).2⟩ : TRes).threshold <
        r.threshold := by
    intro r hr
    obtain ⟨t, ht, rfl⟩ := List.mem_map.mp hr
    have := (List.mem_range'_1.mp ht).1
    show (1 : ℕ) < t
    omega
  have hsorted : ((List.range' 2 63).map
      (fun t => (⟨t, (simulate_packing t chars).1, (simulate_packing t chars).2⟩ : TRes))).Pairwise
      (fun a b => a.threshold < b.threshold) := by
    refine List.Pairwise.map _ ?_ (List.pairwise_lt_range' 2 63 1 (by simp))
    intro a b hab
    simpa using hab
  obtain ⟨hmem, hcost, hall, htie0, htie⟩ := foldl_pickMin_spec _ _ hlt hsorted
  rw [hsc, hbo]
  refine ⟨?_, ?_, ?_⟩
  · rcases hmem with hmem | hmem
    · rw [hmem]; exact List.mem_cons_self _ _
    · exact List.mem_cons_of_mem _ hmem
  · intro r hr
    rcases List.mem_cons.mp hr with rfl | hr
    · exact hcost
    · exact hall r hr
  · intro r hr he
    rcases List.mem_cons.mp hr with rfl | hr
    · exact htie0 he
    · exact htie r hr he

/-- Witness for C7 at the concrete one-glyph list `[(0, 2)]`. -/
theorem C7_witness :
    best_opt [(0, 2)] ∈ scan_results [(0, 2)] ∧
    (⟨5, (simulate_packing 5 [(0, 2)]).1, (simulate_packing 5 [(0, 2)]).2⟩ : TRes) ∈
        scan_results [(0, 2)] ∧
    (best_opt [(0, 2)]).cost ≤
      (⟨5, (simulate_packing 5 [(0, 2)]).1, (simulate_packing 5 [(0, 2)]).2⟩ : TRes).cost := by
  obtain ⟨h1, h2, _⟩ := C7_best_threshold [(0, 2)]
  refine ⟨h1, by decide, h2 _ (by decide)⟩

/-! ### C8: threshold monotonicity on gap-free input -/

/-- On a gap-free list every `gap` is 0, so no threshold in `ℕ` can
trigger a gap split: the simulation is independent of the threshold. -/
theorem simPackAux_gap_free (t1 t2 : ℕ) (l : List (ℕ × ℕ)) :
    ∀ prev d st, List.Chain (fun a b => b.1 = a.1 + 1) (prev, d) l →
      simPackAux t1 l prev st = simPackAux t2 l prev st := by
  induction l with
  | nil => intro prev d st _; rfl
  | cons p rest ih =>
    intro prev d st hchain
    obtain ⟨hstep, hchain'⟩ := List.chain_cons.mp hchain
    obtain ⟨c, sz⟩ := p
    have hc : c = prev + 1 := hstep
    subst hc
    show simPackAux t1 ((prev + 1, sz) :: rest) prev st = _
    unfold simPackAux
    have hgap : prev + 1 - prev - 1 = 0 := by omega
    rw [hgap]
    have hng1 : ¬(0 > t1) := by omega
    have hng2 : ¬(0 > t2) := by omega
    by_cases hsplit : st.slots + 0 + 1 > 256 ∨ prev >>> 16 ≠ (prev + 1) >>> 16
    · rw [if_pos (by tauto), if_pos (by tauto)]
      exact ih _ sz _ hchain'
    · rw [if_neg (by tauto), if_neg (by tauto)]
      exact ih _ sz _ hchain'

/-- C8: for a non-empty gap-free `(codepoint, length)` list (consecutive
codepoints), the simulated cost is non-increasing in the threshold. -/
theorem C8_gap_free_monotone (chars : List (ℕ × ℕ))
    (hcons : List.Chain' (fun a b => b.1 = a.1 + 1) chars)
    (t1 t2 : ℕ) (h12 : t1 ≤ t2) :
    (simulate_packing t2 chars).1 ≤ (simulate_packing t1 chars).1 := by
  cases chars with
  | nil => exact le_refl _
  | cons p rest =>
    obtain ⟨c0, sz0⟩ := p
    have hchain : List.Chain (fun a b : ℕ × ℕ => b.1 = a.1 + 1) (c0, sz0) rest := hcons
    have e2 : simulate_packing t2 ((c0, sz0) :: rest) =
        simulate_packing t1 ((c0, sz0) :: rest) := by
      simp only [simulate_packing]
      rw [simPackAux_gap_free t2 t1 rest c0 sz0 _ hchain]
    rw [e2]

/-- Witness for C8 at the concrete gap-free list `[(0, 2), (1, 4)]`,
thresholds 3 and 60. -/
theorem C8_witness :
    (simulate_packing 60 [(0, 2), (1, 4)]).1 ≤ (simulate_packing 3 [(0, 2), (1, 4)]).1 :=
  C8_gap_free_monotone [(0, 2), (1, 4)]
    (List.chain'_cons.mpr ⟨rfl, List.chain'_singleton _⟩) 3 60 (by decide)

/-! ### Locating the covering section in the parsed index -/

theorem chain_le_of_mem : ∀ (l : List PSec) (a : PSec),
    (a :: l).Chain' (fun x y => x.start + x.count ≤ y.start) →
    ∀ x ∈ l, a.start + a.count ≤ x.start := by
  intro l
  induction l with
  | nil => intro a _ x hx; exact absurd hx (by simp)
  | cons b rest ih =>
    intro a hch x hx
    have hab : a.start + a.count ≤ b.start := (List.chain'_cons.mp hch).1
    rcases List.mem_cons.mp hx with heq | hx
    · subst heq; exact hab
    · have hbx := ih b (List.chain'_cons.mp hch).2 x hx
      omega

/-- The linear scan of `get_strokes` (first matching section wins) finds
exactly the member section covering the requested codepoint, because the
parsed sections of a packed file are disjoint and ordered. -/
theorem find_covering (l : List PSec) (u : ℕ) :
    l.Chain' (fun x y => x.start + x.count ≤ y.start) →
    ∀ psec ∈ l, psec.start ≤ u → u < psec.start + psec.count →
    l.find? (fun s => decide (s.start ≤ u) && decide (u < s.start + s.count)) =
      some psec := by
  induction l with
  | nil => intro _ psec hmem; exact absurd hmem (by simp)
  | cons a rest ih =>
    intro hch psec hmem h1 h2
    rcases List.mem_cons.mp hmem with heq | hmem
    · subst heq
      exact List.find?_cons_of_pos _ (by simp [h1, h2])
    · have hacov : a.start + a.count ≤ psec.start := chain_le_of_mem rest a hch psec hmem
      rw [List.find?_cons_of_neg _ (by simp; omega)]
      exact ih (List.chain'_cons'.mp hch).2 psec hmem h1 h2

theorem chain_zipWith_psec (F : Sec → ℕ → PSec)
    (hF : ∀ s p, (F s p).start = s.start ∧ (F s p).count = s.glyphs.length) :
    ∀ (R : List Sec) (ptrs : List ℕ),
    R.Chain' (fun a b => a.start + a.glyphs.length ≤ b.start) →
    (List.zipWith F R ptrs).Chain' (fun x y => x.start + x.count ≤ y.start) := by
  intro R
  induction R with
  | nil => intro ptrs _; simp
  | cons s R2 ih =>
    intro ptrs hch
    cases ptrs with
    | nil => simp
    | cons p ps =>
      rw [List.zipWith_cons_cons]
      cases R2 with
      | nil =>
        show List.Chain' _ [F s p]
        exact List.chain'_singleton _
      | cons s2 R3 =>
        cases ps with
        | nil =>
          show List.Chain' _ [F s p]
          exact List.chain'_singleton _
        | cons p2 ps2 =>
          rw [List.zipWith_cons_cons]
          rw [List.chain'_cons]
          constructor
          · have h12 := (List.chain'_cons.mp hch).1
            have hF1 := hF s p
            have hF2 := hF s2 p2
            omega
          · have hrest := ih (p2 :: ps2) (List.chain'_cons.mp hch).2
            rw [List.zipWith_cons_cons] at hrest
            exact hrest

theorem lookupE_of_mem (l : List (ℕ × Strokes))
    (hsort : (l.map Prod.fst).Pairwise (· < ·)) :
    ∀ p ∈ l, lookupE l p.1 = some p.2 := by
  induction l with
  | nil => intro p hp; exact absurd hp (by simp)
  | cons a rest ih =>
    intro p hp
    rcases List.mem_cons.mp hp with heq | hp
    · subst heq
      show (if p.1 = p.1 then some p.2 else lookupE rest p.1) = some p.2
      rw [if_pos rfl]
    · have hlt : a.1 < p.1 :=
        (List.pairwise_cons.mp hsort).1 p.1 (List.mem_map_of_mem Prod.fst hp)
      show (if a.1 = p.1 then some a.2 else lookupE rest p.1) = some p.2
      rw [if_neg (by omega)]
      exact ih (List.pairwise_cons.mp hsort).2 p hp

theorem lookupE_mem (l : List (ℕ × Strokes)) (x : ℕ) (g : Strokes)
    (h : lookupE l x = some g) : (x, g) ∈ l := by
  induction l with
  | nil => exact absurd h (by simp [lookupE])
  | cons a rest ih =>
    obtain ⟨a1, a2⟩ := a
    by_cases hp : a1 = x
    · rw [show lookupE ((a1, a2) :: rest) x =
          (if a1 = x then some a2 else lookupE rest x) from rfl, if_pos hp] at h
      have h2 : a2 = g := Option.some.inj h
      subst hp
      subst h2
      exact List.mem_cons_self _ _
    · rw [show lookupE ((a1, a2) :: rest) x =
          (if a1 = x then some a2 else lookupE rest x) from rfl, if_neg hp] at h
      exact List.mem_cons_of_mem _ (ih h)

/-- Every produced section starts at a codepoint of the input map. -/
theorem genSecsAux_start_mem (t : ℕ) (rest : List (ℕ × Strokes)) :
    ∀ (cur : Sec) (prev : ℕ),
    ∀ sec ∈ genSecsAux t cur prev rest,
      sec.start = cur.start ∨ ∃ g, (sec.start, g) ∈ rest := by
  induction rest with
  | nil =>
    intro cur prev sec hsec
    left
    rw [List.mem_singleton.mp hsec]
  | cons p rest ih =>
    intro cur prev sec hsec
    obtain ⟨c, g0⟩ := p
    rw [show genSecsAux t cur prev ((c, g0) :: rest) =
        (if c - prev - 1 > t ∨ cur.glyphs.length + (c - prev - 1) ≥ 256 ∨
            prev >>> 16 ≠ c >>> 16 then
          cur :: genSecsAux t ⟨c, [some g0]⟩ c rest
        else
          genSecsAux t
            ⟨cur.start, cur.glyphs ++ List.replicate (c - prev - 1) none ++ [some g0]⟩
            c rest) from rfl] at hsec
    by_cases hcond : c - prev - 1 > t ∨ cur.glyphs.length + (c - prev - 1) ≥ 256 ∨
        prev >>> 16 ≠ c >>> 16
    · rw [if_pos hcond] at hsec
      rcases List.mem_cons.mp hsec with heq | hsec
      · left; rw [heq]
      · rcases ih ⟨c, [some g0]⟩ c sec hsec with h | ⟨g1, hg1⟩
        · right
          refine ⟨g0, ?_⟩
          rw [show (⟨c, [some g0]⟩ : Sec).start = c from rfl] at h
          rw [h]
          exact List.mem_cons_self _ _
        · right; exact ⟨g1, List.mem_cons_of_mem _ hg1⟩
    · rw [if_neg hcond] at hsec
      rcases ih _ c sec hsec with h | ⟨g1, hg1⟩
      · left; exact h
      · right; exact ⟨g1, List.mem_cons_of_mem _ hg1⟩

theorem generate_sections_start_mem (t : ℕ) (entries : List (ℕ × Strokes)) :
    ∀ sec ∈ generate_sections t entries, ∃ g, (sec.start, g) ∈ entries := by
  match entries with
  | [] => intro sec hsec; exact absurd hsec (by simp [generate_sections])
  | (c0, g0) :: rest =>
    intro sec hsec
    rcases genSecsAux_start_mem t rest ⟨c0, [some g0]⟩ c0 sec hsec with h | ⟨g1, hg1⟩
    · refine ⟨g0, ?_⟩
      rw [show (⟨c0, [some g0]⟩ : Sec).start = c0 from rfl] at h
      rw [h]
      exact List.mem_cons_self _ _
    · exact ⟨g1, List.mem_cons_of_mem _ hg1⟩

/-- On a sorted map with 21-bit codepoints, every section satisfies the
preconditions of index-entry decoding. -/
theorem sections_inv (entries : List (ℕ × Strokes))
    (hsort : (entries.map Prod.fst).Pairwise (· < ·))
    (hcode : ∀ p ∈ entries, p.1 < 2097152) :
    ∀ sec ∈ generate_sections 14 entries,
      sec.start < 2097152 ∧ 1 ≤ sec.glyphs.length := by
  intro sec hsec
  obtain ⟨r1, _, _, _⟩ := generate_sections_main 14 entries hsort
  obtain ⟨g, hg⟩ := generate_sections_start_mem 14 entries sec hsec
  exact ⟨hcode _ hg, ((r1 sec hsec).1).1⟩

theorem recon24_eq (p : ℕ) (h4 : 4 ∣ p) (hlt : p < 67108864) : recon24 p = p := by
  unfold recon24
  rw [Nat.shiftRight_eq_div_pow, Nat.shiftLeft_eq, show (2 : ℕ) ^ 2 = 4 from rfl]
  omega

/-- Every block pointer of a successfully written file is 4-aligned,
behind the header, and its block header fits inside the file. -/
theorem blockPtrs_bounds (fontId : ℕ) (entries : List (ℕ × Strokes)) (file : List ℕ)
    (hfin : finish fontId entries = some file) :
    ∀ p ∈ blockPtrs entries, 4 ∣ p ∧ 12 ≤ p ∧ p + 4 ≤ file.length := by
  obtain ⟨hne, hN, hfid, hstop, hfile⟩ := finish_spec fontId entries file hfin
  intro p hp
  have hp2 : p ∈ (buildBlocks (12 + (generate_sections 14 entries).length * 8)
      (generate_sections 14 entries)).ptrs := hp
  obtain ⟨h4, hge, hle⟩ :=
    (buildBlocks_ptrs_facts (generate_sections 14 entries)
      (12 + (generate_sections 14 entries).length * 8)).2 p hp2
  have hstopeq := buildBlocks_stop_eq (generate_sections 14 entries)
    (12 + (generate_sections 14 entries).length * 8)
  have hflat := buildBlocks_idx_flatten_length (generate_sections 14 entries)
    (12 + (generate_sections 14 entries).length * 8)
  have hlen : file.length = 12 + (generate_sections 14 entries).length * 8 +
      (buildBlocks (12 + (generate_sections 14 entries).length * 8)
        (generate_sections 14 entries)).bin.length := by
    rw [hfile]
    simp only [List.length_append]
    rw [hflat, show (magic : List ℕ).length = 4 from rfl,
      show (u32le fontId).length = 4 from rfl,
      show (u16le 0).length = 2 from rfl,
      show (u16le (generate_sections 14 entries).length).length = 2 from rfl]
    omega
  exact ⟨h4, by omega, by omega⟩

/-! ### Reading a block laid out by the packer -/

/-- Skipping the 4-byte block header leaves the length table, then the
data stream, then whatever follows the block. -/
theorem drop_block (data : List ℕ) (sec : Sec) (ptr : ℕ) (tail : List ℕ)
    (hdrop : data.drop ptr = blockBytes sec ++ tail) :
    data.drop (ptr + 4) = length_table sec ++ (data_stream sec ++ tail) := by
  have h1 : data.drop (ptr + 4) = (data.drop ptr).drop 4 := by
    rw [List.drop_drop]
  rw [h1, hdrop, show (blockBytes sec ++ tail).drop 4 =
      (length_table sec ++ data_stream sec) ++ tail from rfl, List.append_assoc]

/-- The length-table byte of slot `li` reads back `slotLen` of that slot. -/
theorem table_byte (data : List ℕ) (sec : Sec) (ptr li : ℕ) (tail : List ℕ)
    (o : Option Strokes)
    (hdrop : data.drop ptr = blockBytes sec ++ tail)
    (hslot : sec.glyphs[li]? = some o) :
    data[ptr + 4 + li]? = some (slotLen o) := by
  have hli : li < sec.glyphs.length := by
    by_contra hcon
    rw [List.getElem?_eq_none (by omega)] at hslot
    exact absurd hslot (by simp)
  have h1 : data[ptr + 4 + li]? = (data.drop (ptr + 4))[li]? := by
    rw [List.getElem?_drop]
  rw [h1, drop_block data sec ptr tail hdrop,
    List.getElem?_append_left (by
      rw [show (length_table sec).length = sec.glyphs.length from List.length_map _ _]
      exact hli)]
  show (sec.glyphs.map slotLen)[li]? = some (slotLen o)
  rw [List.getElem?_map, hslot]
  rfl

/-- The parser's `preceding_points` slice-sum equals the `slotLen` sum of
the slots before `li`. -/
theorem preceding_sum (data : List ℕ) (sec : Sec) (ptr li : ℕ) (tail : List ℕ)
    (hdrop : data.drop ptr = blockBytes sec ++ tail)
    (hli : li ≤ sec.glyphs.length) :
    ((data.drop (ptr + 4)).take li).sum = ((sec.glyphs.take li).map slotLen).sum := by
  rw [drop_block data sec ptr tail hdrop,
    List.take_append_of_le_length (by
      rw [show (length_table sec).length = sec.glyphs.length from List.length_map _ _]
      exact hli)]
  show ((sec.glyphs.map slotLen).take li).sum = _
  rw [← List.map_take]

/-- Dropping the block header, the length table and the stream bytes of
the preceding slots lands exactly on slot `li`'s stream data. -/
theorem stream_bytes (data : List ℕ) (sec : Sec) (ptr li : ℕ) (tail : List ℕ)
    (hdrop : data.drop ptr = blockBytes sec ++ tail) (hli : li < sec.glyphs.length) :
    data.drop (ptr + 4 + sec.glyphs.length +
        ((sec.glyphs.take li).map slotLen).sum * 2) =
      slotData (sec.glyphs.get ⟨li, hli⟩) ++
        (((sec.glyphs.drop (li + 1)).map slotData).flatten ++ tail) := by
  have h1 : data.drop (ptr + 4 + sec.glyphs.length +
      ((sec.glyphs.take li).map slotLen).sum * 2) =
      (data.drop (ptr + 4)).drop (sec.glyphs.length +
        ((sec.glyphs.take li).map slotLen).sum * 2) := by
    rw [show ptr + 4 + sec.glyphs.length + ((sec.glyphs.take li).map slotLen).sum * 2 =
        (ptr + 4) + (sec.glyphs.length + ((sec.glyphs.take li).map slotLen).sum * 2)
        from by omega,
      ← List.drop_drop]
  rw [h1, drop_block data sec ptr tail hdrop,
    show sec.glyphs.length + ((sec.glyphs.take li).map slotLen).sum * 2 =
      (length_table sec).length + ((sec.glyphs.take li).map slotLen).sum * 2 from by
      rw [show (length_table sec).length = sec.glyphs.length from List.length_map _ _],
    List.drop_append]
  have h0 : sec.glyphs = sec.glyphs.take li ++
      (sec.glyphs.get ⟨li, hli⟩ :: sec.glyphs.drop (li + 1)) := by
    rw [show sec.glyphs.get ⟨li, hli⟩ :: sec.glyphs.drop (li + 1) =
        sec.glyphs.drop li from (List.drop_eq_getElem_cons hli).symm,
      List.take_append_drop]
  have hsplit : data_stream sec =
      ((sec.glyphs.take li).map slotData).flatten ++
        (slotData (sec.glyphs.get ⟨li, hli⟩) ++
          ((sec.glyphs.drop (li + 1)).map slotData).flatten) := by
    show (sec.glyphs.map slotData).flatten = _
    conv_lhs => rw [h0]
    rw [List.map_append, List.flatten_append, List.map_cons, List.flatten_cons]
  have hlenA : (((sec.glyphs.take li).map slotData).flatten).length =
      ((sec.glyphs.take li).map slotLen).sum * 2 := by
    rw [List.length_flatten, List.map_map]
    have hmc : List.map (List.length ∘ slotData) (sec.glyphs.take li) =
        (sec.glyphs.take li).map (fun o => 2 * slotLen o) :=
      List.map_congr_left (fun o _ => slotData_length o)
    rw [hmc, sum_map_two_mul]
    omega
  rw [hsplit, List.append_assoc, List.drop_left' hlenA, List.append_assoc]

/-! ### Quantization bounds and full slots -/

theorem quant_lt_128 (x : ℚ) : quant x < 128 :=
  Nat.lt_succ_of_le Nat.and_le_right

theorem and128_eq_zero {b : ℕ} (hb : b < 128) : b &&& 128 = 0 := by
  apply Nat.eq_of_testBit_eq
  intro i
  rw [Nat.testBit_and, Nat.zero_testBit,
    show (128 : ℕ) = 2 ^ 7 from rfl, Nat.testBit_two_pow]
  by_cases h7 : 7 = i
  · subst h7
    rw [Nat.testBit_lt_two_pow (show b < 2 ^ 7 from hb)]
    simp
  · simp [h7]

theorem and127_eq_self {b : ℕ} (hb : b < 128) : b &&& 127 = b := by
  rw [show (127 : ℕ) = 2 ^ 7 - 1 from rfl]
  exact Nat.and_pow_two_sub_one_of_lt_two_pow hb

theorem marked_lo {q : ℕ} (hq : q < 128) : (q ||| 128) &&& 127 = q := by
  rw [Nat.and_distrib_right, show (128 : ℕ) &&& 127 = 0 from rfl,
    and127_eq_self hq, Nat.or_zero]

theorem marked_hi {q : ℕ} (hq : q < 128) : (q ||| 128) &&& 128 = 128 := by
  rw [Nat.and_distrib_right, and128_eq_zero hq, Nat.zero_or,
    show (128 : ℕ) &&& 128 = 128 from rfl]

/-- With at most 255 points, the length-table byte is the exact point
count (no clamping happens). -/
theorem slotLen_eq (g : Strokes) (hpts : totalPoints g ≤ 255) :
    slotLen (some g) = totalPoints g := by
  by_cases hg : g = []
  · subst hg; rfl
  · show (if g = [] then 0 else min 255 ((glyph_data g).length / 2)) = totalPoints g
    rw [if_neg hg]
    have hlen := glyph_data_length g
    omega

/-- With at most 255 points, the stream bytes of a slot are the full
encoded glyph (no truncation happens). -/
theorem slotData_eq (g : Strokes) (hpts : totalPoints g ≤ 255) :
    slotData (some g) = glyph_data g := by
  by_cases hg : g = []
  · subst hg; rfl
  · show (if g = [] then []
      else (glyph_data g).take (min 255 ((glyph_data g).length / 2) * 2)) = glyph_data g
    rw [if_neg hg]
    have hlen := glyph_data_length g
    rw [show min 255 ((glyph_data g).length / 2) * 2 = (glyph_data g).length from by omega]
    exact List.take_length _

theorem slotLen_pos (g : Strokes) (hg : g ≠ []) (hne : ∀ st ∈ g, st ≠ []) :
    1 ≤ slotLen (some g) := by
  show 1 ≤ (if g = [] then 0 else min 255 ((glyph_data g).length / 2))
  rw [if_neg hg]
  have hlen := glyph_data_length g
  obtain ⟨st, rest, rfl⟩ := List.exists_cons_of_ne_nil hg
  have hst : st ≠ [] := hne st (List.mem_cons_self _ _)
  have h1 : 0 < st.length := List.length_pos.mpr hst
  have h2 : totalPoints (st :: rest) = st.length + totalPoints rest := by
    show ((st :: rest).map List.length).sum = _
    rw [List.map_cons, List.sum_cons]
    rfl
  omega

/-! ### Decoding the encoded stream -/

/-- Unmarked interior points are consumed one by one, extending the
current stroke with the quantized point. -/
theorem decodeLoop_interior (ps : List Pt) :
    ∀ (rest : List ℕ) (cur : Stroke) (acc : Strokes),
    decodeLoop (ps.flatMap (encodePoint false) ++ rest) cur acc =
      decodeLoop rest (cur ++ ps.map quantPt) acc := by
  induction ps with
  | nil => intro rest cur acc; simp
  | cons p ps ih =>
    intro rest cur acc
    rw [List.flatMap_cons,
      show encodePoint false p = [quant p.1, quant p.2] from rfl,
      List.append_assoc]
    rw [show ([quant p.1, quant p.2] ++ (ps.flatMap (encodePoint false) ++ rest) :
        List ℕ) = quant p.1 :: quant p.2 :: (ps.flatMap (encodePoint false) ++ rest)
      from rfl]
    rw [show decodeLoop
        (quant p.1 :: quant p.2 :: (ps.flatMap (encodePoint false) ++ rest)) cur acc =
      (if quant p.1 &&& 128 ≠ 0 then
        decodeLoop (ps.flatMap (encodePoint false) ++ rest)
          [(((quant p.1 &&& 127 : ℕ) : ℚ) / 127, ((quant p.2 &&& 127 : ℕ) : ℚ) / 127)]
          (acc ++ if cur = [] then [] else [cur])
      else
        decodeLoop (ps.flatMap (encodePoint false) ++ rest)
          (cur ++ [(((quant p.1 &&& 127 : ℕ) : ℚ) / 127,
            ((quant p.2 &&& 127 : ℕ) : ℚ) / 127)]) acc) from rfl]
    rw [and128_eq_zero (quant_lt_128 p.1), if_neg (by omega),
      and127_eq_self (quant_lt_128 p.1), and127_eq_self (quant_lt_128 p.2)]
    rw [ih rest (cur ++ [(((quant p.1 : ℕ) : ℚ) / 127, ((quant p.2 : ℕ) : ℚ) / 127)]) acc]
    rw [List.map_cons,
      show cur ++ quantPt p :: List.map quantPt ps =
        (cur ++ [quantPt p]) ++ List.map quantPt ps from by simp]
    rfl

/-- A marked first byte closes the current stroke and starts a new one;
a whole encoded stroke therefore decodes to its quantized points. -/
theorem decodeLoop_stroke (p : Pt) (ps : List Pt) (rest : List ℕ)
    (cur : Stroke) (acc : Strokes) :
    decodeLoop (encodeStroke (p :: ps) ++ rest) cur acc =
      decodeLoop rest ((p :: ps).map quantPt)
        (acc ++ if cur = [] then [] else [cur]) := by
  rw [show encodeStroke (p :: ps) = encodePoint true p ++ ps.flatMap (encodePoint false)
      from rfl,
    show encodePoint true p = [quant p.1 ||| 128, quant p.2] from rfl,
    List.append_assoc]
  rw [show ([quant p.1 ||| 128, quant p.2] ++ (ps.flatMap (encodePoint false) ++ rest) :
      List ℕ) = (quant p.1 ||| 128) :: quant p.2 ::
        (ps.flatMap (encodePoint false) ++ rest) from rfl]
  rw [show decodeLoop ((quant p.1 ||| 128) :: quant p.2 ::
      (ps.flatMap (encodePoint false) ++ rest)) cur acc =
    (if (quant p.1 ||| 128) &&& 128 ≠ 0 then
      decodeLoop (ps.flatMap (encodePoint false) ++ rest)
        [((((quant p.1 ||| 128) &&& 127 : ℕ) : ℚ) / 127,
          ((quant p.2 &&& 127 : ℕ) : ℚ) / 127)]
        (acc ++ if cur = [] then [] else [cur])
    else
      decodeLoop (ps.flatMap (encodePoint false) ++ rest)
        (cur ++ [((((quant p.1 ||| 128) &&& 127 : ℕ) : ℚ) / 127,
          ((quant p.2 &&& 127 : ℕ) : ℚ) / 127)]) acc) from rfl]
  rw [marked_hi (quant_lt_128 p.1), if_pos (by omega),
    marked_lo (quant_lt_128 p.1), and127_eq_self (quant_lt_128 p.2)]
  rw [decodeLoop_interior ps rest
    [(((quant p.1 : ℕ) : ℚ) / 127, ((quant p.2 : ℕ) : ℚ) / 127)]
    (acc ++ if cur = [] then [] else [cur])]
  rw [List.map_cons]
  rfl

/-- Decoding the full encoded byte stream of a glyph (all strokes
nonempty) appends the quantized strokes to the accumulator. -/
theorem decodeLoop_glyph (g : Strokes) (hne : ∀ st ∈ g, st ≠ []) :
    ∀ (cur : Stroke) (acc : Strokes),
    decodeLoop (glyph_data g) cur acc =
      .ok ((acc ++ if cur = [] then [] else [cur]) ++ quantStrokes g) := by
  induction g with
  | nil =>
    intro cur acc
    show Except.ok (acc ++ if cur = [] then [] else [cur]) = _
    rw [show quantStrokes [] = [] from rfl, List.append_nil]
  | cons st g ih =>
    intro cur acc
    have hst : st ≠ [] := hne st (List.mem_cons_self _ _)
    obtain ⟨p, ps, rfl⟩ := List.exists_cons_of_ne_nil hst
    rw [show glyph_data ((p :: ps) :: g) =
        encodeStroke (p :: ps) ++ glyph_data g from List.flatMap_cons _ _ _,
      decodeLoop_stroke p ps (glyph_data g) cur acc,
      ih (fun s hs => hne s (List.mem_cons_of_mem _ hs))
        ((p :: ps).map quantPt) (acc ++ if cur = [] then [] else [cur])]
    have hmapne : List.map quantPt (p :: ps) ≠ [] := by simp
    rw [if_neg hmapne, show quantStrokes ((p :: ps) :: g) =
      (p :: ps).map quantPt :: quantStrokes g from rfl]
    rw [List.append_assoc, List.singleton_append]

/-- `decodeStrokes` inverts `glyph_data` up to quantization. -/
theorem decodeStrokes_glyph (g : Strokes) (hne : ∀ st ∈ g, st ≠ []) :
    decodeStrokes (glyph_data g) = .ok (quantStrokes g) := by
  show decodeLoop (glyph_data g) [] [] = _
  rw [decodeLoop_glyph g hne [] []]
  rw [if_pos rfl, List.append_nil, List.nil_append]

/-! ### Evaluating `get_strokes` on a loaded parser -/

/-- Successful path of `get_strokes`: a section is found, the length
table byte is in bounds and nonzero, and the result is the decoding of
the computed slice. -/
theorem get_strokes_spec (data : List ℕ) (psecs : List PSec) (u : ℕ) (psec : PSec)
    (hfind : psecs.find?
      (fun s => decide (s.start ≤ u) && decide (u < s.start + s.count)) = some psec)
    (tl : ℕ) (htable : data[psec.ptr + 4 + (u - psec.start)]? = some tl)
    (htl : tl ≠ 0) :
    get_strokes ⟨some data, psecs⟩ u =
      decodeStrokes ((data.drop (psec.ptr + 4 + psec.count +
        ((data.drop (psec.ptr + 4)).take (u - psec.start)).sum * 2)).take (tl * 2)) := by
  show (match psecs.find?
      (fun s => decide (s.start ≤ u) && decide (u < s.start + s.count)) with
    | none => (Except.ok [] : Except PErr Strokes)
    | some sec =>
      match data[sec.ptr + 4 + (u - sec.start)]? with
      | none => Except.error PErr.indexError
      | some target_len =>
        if target_len = 0 then Except.ok []
        else decodeStrokes ((data.drop (sec.ptr + 4 + sec.count +
          ((data.drop (sec.ptr + 4)).take (u - sec.start)).sum * 2)).take
            (target_len * 2))) = _
  rw [hfind]
  show (match data[psec.ptr + 4 + (u - psec.start)]? with
    | none => Except.error PErr.indexError
    | some target_len =>
      if target_len = 0 then Except.ok []
      else decodeStrokes ((data.drop (psec.ptr + 4 + psec.count +
        ((data.drop (psec.ptr + 4)).take (u - psec.start)).sum * 2)).take
          (target_len * 2))) = _
  rw [htable]
  show (if tl = 0 then Except.ok []
    else decodeStrokes ((data.drop (psec.ptr + 4 + psec.count +
      ((data.drop (psec.ptr + 4)).take (u - psec.start)).sum * 2)).take (tl * 2))) = _
  rw [if_neg htl]

/-- Zero length-table byte: `get_strokes` returns the empty list. -/
theorem get_strokes_zero (data : List ℕ) (psecs : List PSec) (u : ℕ) (psec : PSec)
    (hfind : psecs.find?
      (fun s => decide (s.start ≤ u) && decide (u < s.start + s.count)) = some psec)
    (htable : data[psec.ptr + 4 + (u - psec.start)]? = some 0) :
    get_strokes ⟨some data, psecs⟩ u = .ok [] := by
  show (match psecs.find?
      (fun s => decide (s.start ≤ u) && decide (u < s.start + s.count)) with
    | none => (Except.ok [] : Except PErr Strokes)
    | some sec =>
      match data[sec.ptr + 4 + (u - sec.start)]? with
      | none => Except.error PErr.indexError
      | some target_len =>
        if target_len = 0 then Except.ok []
        else decodeStrokes ((data.drop (sec.ptr + 4 + sec.count +
          ((data.drop (sec.ptr + 4)).take (u - sec.start)).sum * 2)).take
            (target_len * 2))) = _
  rw [hfind]
  show (match data[psec.ptr + 4 + (u - psec.start)]? with
    | none => Except.error PErr.indexError
    | some target_len =>
      if target_len = 0 then Except.ok []
      else decodeStrokes ((data.drop (psec.ptr + 4 + psec.count +
        ((data.drop (psec.ptr + 4)).take (u - psec.start)).sum * 2)).take
          (target_len * 2))) = _
  rw [htable]
  rfl

/-- Out-of-bounds length-table read: the Python direct index raises. -/
theorem get_strokes_err (data : List ℕ) (psecs : List PSec) (u : ℕ) (psec : PSec)
    (hfind : psecs.find?
      (fun s => decide (s.start ≤ u) && decide (u < s.start + s.count)) = some psec)
    (htable : data[psec.ptr + 4 + (u - psec.start)]? = none) :
    get_strokes ⟨some data, psecs⟩ u = .error .indexError := by
  show (match psecs.find?
      (fun s => decide (s.start ≤ u) && decide (u < s.start + s.count)) with
    | none => (Except.ok [] : Except PErr Strokes)
    | some sec =>
      match data[sec.ptr + 4 + (u - sec.start)]? with
      | none => Except.error PErr.indexError
      | some target_len =>
        if target_len = 0 then Except.ok []
        else decodeStrokes ((data.drop (sec.ptr + 4 + sec.count +
          ((data.drop (sec.ptr + 4)).take (u - sec.start)).sum * 2)).take
            (target_len * 2))) = _
  rw [hfind]
  show (match data[psec.ptr + 4 + (u - psec.start)]? with
    | none => Except.error PErr.indexError
    | some target_len =>
      if target_len = 0 then Except.ok []
      else decodeStrokes ((data.drop (psec.ptr + 4 + psec.count +
        ((data.drop (psec.ptr + 4)).take (u - psec.start)).sum * 2)).take
          (target_len * 2))) = _
  rw [htable]

theorem zipWith_congr_mem_right {α β γ : Type} (f g : α → β → γ) :
    ∀ (la : List α) (lb : List β), (∀ b ∈ lb, ∀ a, f a b = g a b) →
    List.zipWith f la lb = List.zipWith g la lb := by
  intro la
  induction la with
  | nil => intro lb _; simp
  | cons a as ih =>
    intro lb h
    cases lb with
    | nil => simp
    | cons b bs =>
      rw [List.zipWith_cons_cons, h b (List.mem_cons_self _ _) a,
        ih bs (fun x hx a2 => h x (List.mem_cons_of_mem b hx) a2)]
      rfl

/-! ### C1: pack/parse round trip -/

/-- C1 (amended): on a sorted glyph map with 21-bit codepoints, glyphs of
at most 255 points in nonempty strokes, **coordinates clamped inside
[0, 1]** and a written file of at most `2^26` bytes, `get_strokes`
returns every stored glyph with coordinates quantized to multiples of
`1/127`; for clamped coordinates the quantized value is within one
quantization step of `round(original*127)/127`.  (The original claim
fails for coordinates outside `[0, 1]`: the packer clamps them, see the
counterexample.) -/
theorem C1_roundtrip (fontId : ℕ) (entries : List (ℕ × Strokes)) (file : List ℕ)
    (hsort : (entries.map Prod.fst).Pairwise (· < ·))
    (hcode : ∀ p ∈ entries, p.1 < 2097152)
    (hstk : ∀ p ∈ entries, ∀ st ∈ p.2, st ≠ [])
    (hpts : ∀ p ∈ entries, totalPoints p.2 ≤ 255)
    (hfin : finish fontId entries = some file)
    (hsize : file.length ≤ 67108864) :
    (∀ p ∈ entries, get_strokes (parseFile file) p.1 = .ok (quantStrokes p.2)) ∧
    (∀ x : ℚ, 0 ≤ x → x ≤ 1 →
      |((quant x : ℕ) : ℚ) / 127 - ((round (x * 127) : ℤ) : ℚ) / 127| ≤ 1 / 127) := by
  have hinv := sections_inv entries hsort hcode
  have hload := load_finish fontId entries file hfin hinv
  obtain ⟨hne0, hN, hfid, hstop, hfile⟩ := finish_spec fontId entries file hfin
  have hbounds := blockPtrs_bounds fontId entries file hfin
  have hcong : List.zipWith (fun s p => PSec.mk s.start s.glyphs.length (recon24 p))
      (generate_sections 14 entries) (blockPtrs entries) =
    List.zipWith (fun s p => PSec.mk s.start s.glyphs.length p)
      (generate_sections 14 entries) (blockPtrs entries) := by
    apply zipWith_congr_mem_right
    intro q hq s
    obtain ⟨h4, h12, hle⟩ := hbounds q hq
    rw [recon24_eq q h4 (by omega)]
  set psecs := List.zipWith (fun s p => PSec.mk s.start s.glyphs.length p)
    (generate_sections 14 entries) (blockPtrs entries) with hpsecs
  have hpf : parseFile file = ⟨some file, psecs⟩ := by
    show ParserState.mk (some file) ((load file).getD []) = _
    rw [hload, hcong]
    rfl
  obtain ⟨r1, r2, r3, r5⟩ := generate_sections_main 14 entries hsort
  constructor
  · intro p hp
    obtain ⟨sec, hsec, hcov1, hcov2⟩ := r3 p hp
    obtain ⟨k, hRk⟩ := List.mem_iff_getElem?.mp hsec
    have hkR : k < (generate_sections 14 entries).length := by
      by_contra hcon
      rw [List.getElem?_eq_none (by omega)] at hRk
      exact absurd hRk (by simp)
    have hplen : (blockPtrs entries).length = (generate_sections 14 entries).length :=
      buildBlocks_ptrs_length _ _
    have hkp : k < (blockPtrs entries).length := by omega
    set ptrk := (blockPtrs entries).get ⟨k, hkp⟩ with hptrk
    have hPk : (blockPtrs entries)[k]? = some ptrk := List.getElem?_eq_getElem hkp
    have hpsk : psecs[k]? = some (PSec.mk sec.start sec.glyphs.length ptrk) :=
      List.getElem?_zipWith_eq_some.mpr ⟨sec, ptrk, hRk, hPk, rfl⟩
    have hpsmem : PSec.mk sec.start sec.glyphs.length ptrk ∈ psecs :=
      List.getElem?_mem hpsk
    have hchain : psecs.Chain' (fun x y => x.start + x.count ≤ y.start) :=
      chain_zipWith_psec _ (fun s q => ⟨rfl, rfl⟩) _ _ r5
    have hfind : psecs.find?
        (fun s => decide (s.start ≤ p.1) && decide (p.1 < s.start + s.count)) =
        some (PSec.mk sec.start sec.glyphs.length ptrk) :=
      find_covering psecs p.1 hchain _ hpsmem hcov1 hcov2
    have hptrf := hbounds ptrk (List.get_mem _ _ _)
    obtain ⟨tail, htail⟩ := buildBlocks_content (generate_sections 14 entries)
      (12 + (generate_sections 14 entries).length * 8)
      (magic ++ u32le fontId ++ u16le 0 ++ u16le (generate_sections 14 entries).length ++
        (buildBlocks (12 + (generate_sections 14 entries).length * 8)
          (generate_sections 14 entries)).idx.flatten)
      (by
        simp only [List.length_append]
        rw [buildBlocks_idx_flatten_length,
          show (magic : List ℕ).length = 4 from rfl,
          show (u32le fontId).length = 4 from rfl,
          show (u16le 0).length = 2 from rfl,
          show (u16le (generate_sections 14 entries).length).length = 2 from rfl]
        omega)
      k hkR
    have htail2 : file.drop ((blockPtrs entries).getD k 0) =
        blockBytes ((generate_sections 14 entries).getD k ⟨0, []⟩) ++ tail := by
      rw [hfile]
      have hassoc : magic ++ u32le fontId ++ u16le 0 ++
          u16le (generate_sections 14 entries).length ++
          (buildBlocks (12 + (generate_sections 14 entries).length * 8)
            (generate_sections 14 entries)).idx.flatten ++
          (buildBlocks (12 + (generate_sections 14 entries).length * 8)
            (generate_sections 14 entries)).bin =
        (magic ++ u32le fontId ++ u16le 0 ++
          u16le (generate_sections 14 entries).length ++
          (buildBlocks (12 + (generate_sections 14 entries).length * 8)
            (generate_sections 14 entries)).idx.flatten) ++
          (buildBlocks (12 + (generate_sections 14 entries).length * 8)
            (generate_sections 14 entries)).bin := by
        simp [List.append_assoc]
      rw [hassoc]
      exact htail
    have hgetD1 : (blockPtrs entries).getD k 0 = ptrk := by
      rw [List.getD_eq_getElem?_getD, hPk]
      rfl
    have hgetD2 : (generate_sections 14 entries).getD k ⟨0, []⟩ = sec := by
      rw [List.getD_eq_getElem?_getD, hRk]
      rfl
    rw [hgetD1, hgetD2] at htail2
    set li := p.1 - sec.start with hli
    have hli_lt : li < sec.glyphs.length := by omega
    have hlook : lookupE entries p.1 = some p.2 := lookupE_of_mem entries hsort p hp
    have hslot : sec.glyphs[li]? = some (some p.2) := by
      rw [(r1 sec hsec).2.2 li hli_lt, show sec.start + li = p.1 from by omega, hlook]
    have htb : file[ptrk + 4 + li]? = some (slotLen (some p.2)) :=
      table_byte file sec ptrk li tail (some p.2) htail2 hslot
    rw [hpf]
    by_cases hg : p.2 = []
    · have hz : slotLen (some p.2) = 0 := by rw [hg]; rfl
      rw [get_strokes_zero file psecs p.1 (PSec.mk sec.start sec.glyphs.length ptrk)
        hfind (by
          show file[ptrk + 4 + (p.1 - sec.start)]? = some 0
          rw [← hli]
          exact htb.trans (by rw [hz]))]
      rw [hg]
      rfl
    · have hpos := slotLen_pos p.2 hg (hstk p hp)
      rw [get_strokes_spec file psecs p.1 (PSec.mk sec.start sec.glyphs.length ptrk)
        hfind (slotLen (some p.2)) (by
          show file[ptrk + 4 + (p.1 - sec.start)]? = some (slotLen (some p.2))
          rw [← hli]
          exact htb) (by omega)]
      show decodeStrokes ((file.drop (ptrk + 4 + sec.glyphs.length +
        ((file.drop (ptrk + 4)).take (p.1 - sec.start)).sum * 2)).take
          (slotLen (some p.2) * 2)) = .ok (quantStrokes p.2)
      rw [← hli]
      rw [preceding_sum file sec ptrk li tail htail2 (by omega)]
      have hstream := stream_bytes file sec ptrk li tail htail2 hli_lt
      have hgeteq : sec.glyphs.get ⟨li, hli_lt⟩ = some p.2 := by
        have h1 : sec.glyphs[li]? = some (sec.glyphs.get ⟨li, hli_lt⟩) :=
          List.getElem?_eq_getElem hli_lt
        rw [hslot] at h1
        exact (Option.some.inj h1).symm
      rw [hgeteq, slotData_eq p.2 (hpts p hp)] at hstream
      rw [hstream, slotLen_eq p.2 (hpts p hp),
        List.take_left' (by rw [glyph_data_length]; omega)]
      exact decodeStrokes_glyph p.2 (hstk p hp)
  · intro x hx0 hx1
    have hclamp : max 0 (min 1 x) = x := by
      rw [min_eq_right hx1, max_eq_right hx0]
    have hvge : (0 : ℚ) ≤ x * 127 := mul_nonneg hx0 (by norm_num)
    have hvle : x * 127 ≤ 127 := by nlinarith
    have hfl0 : 0 ≤ ⌊x * 127⌋ := Int.floor_nonneg.mpr hvge
    have hfl127 : ⌊x * 127⌋ ≤ 127 := by
      have h1 : ⌊x * 127⌋ ≤ ⌊(127 : ℚ)⌋ := Int.floor_mono hvle
      rw [show ((127 : ℚ)) = ((127 : ℤ) : ℚ) from by norm_num, Int.floor_intCast] at h1
      exact h1
    have hq : quant x = (⌊x * 127⌋).toNat := by
      unfold quant
      rw [hclamp]
      exact and127_eq_self (by omega)
    have hcast : ((quant x : ℕ) : ℚ) = ((⌊x * 127⌋ : ℤ) : ℚ) := by
      rw [hq, show (((⌊x * 127⌋).toNat : ℕ) : ℚ) = (((⌊x * 127⌋).toNat : ℤ) : ℚ) from
        (Int.cast_natCast _).symm, Int.toNat_of_nonneg hfl0]
    have hrd1 : ⌊x * 127⌋ ≤ round (x * 127) := by
      rw [round_eq]
      exact Int.floor_mono (by linarith)
    have hrd2 : round (x * 127) ≤ ⌊x * 127⌋ + 1 := by
      rw [round_eq]
      have h3 : ⌊x * 127 + 1 / 2⌋ ≤ ⌊x * 127 + 1⌋ := Int.floor_mono (by linarith)
      rw [Int.floor_add_one] at h3
      exact h3
    have hc1 : ((⌊x * 127⌋ : ℤ) : ℚ) ≤ ((round (x * 127) : ℤ) : ℚ) := by
      exact_mod_cast hrd1
    have hc2 : ((round (x * 127) : ℤ) : ℚ) ≤ ((⌊x * 127⌋ : ℤ) : ℚ) + 1 := by
      exact_mod_cast hrd2
    rw [hcast, div_sub_div_same, abs_div,
      show |(127 : ℚ)| = 127 from abs_of_nonneg (by norm_num)]
    rw [div_le_div_right (show (0 : ℚ) < 127 from by norm_num)]
    rw [abs_sub_le_iff]
    constructor
    · linarith
    · linarith

/-! ### Concrete packed files: scalar quantization values -/

theorem quant_zero : quant 0 = 0 := by
  unfold quant
  rw [show max 0 (min 1 (0 : ℚ)) = 0 from rfl,
    show ((0 : ℚ) * 127) = 0 from by norm_num,
    show ⌊(0 : ℚ)⌋ = 0 from by norm_num]
  rfl

theorem quant_one : quant 1 = 127 := by
  unfold quant
  rw [show max 0 (min 1 (1 : ℚ)) = 1 from rfl,
    show ((1 : ℚ) * 127) = 127 from by norm_num,
    show ⌊(127 : ℚ)⌋ = 127 from by norm_num]
  rfl

theorem quant_two : quant 2 = 127 := by
  unfold quant
  rw [show max 0 (min 1 (2 : ℚ)) = 1 from rfl,
    show ((1 : ℚ) * 127) = 127 from by norm_num,
    show ⌊(127 : ℚ)⌋ = 127 from by norm_num]
  rfl

theorem slotLen_le (o : Option Strokes) : slotLen o ≤ 255 := by
  match o with
  | none => exact Nat.zero_le _
  | some s =>
    show (if s = [] then 0 else min 255 ((glyph_data s).length / 2)) ≤ 255
    split
    · exact Nat.zero_le _
    · omega

/-- `finish` with all guards satisfied writes the laid-out file. -/
theorem finish_eq (fontId : ℕ) (entries : List (ℕ × Strokes))
    (hne : generate_sections 14 entries ≠ [])
    (hN : (generate_sections 14 entries).length < 65536)
    (hfid : fontId < 4294967296)
    (hstop : (buildBlocks (12 + (generate_sections 14 entries).length * 8)
      (generate_sections 14 entries)).stop < 17179869184) :
    finish fontId entries = some (magic ++ u32le fontId ++ u16le 0 ++
      u16le (generate_sections 14 entries).length ++
      (buildBlocks (12 + (generate_sections 14 entries).length * 8)
        (generate_sections 14 entries)).idx.flatten ++
      (buildBlocks (12 + (generate_sections 14 entries).length * 8)
        (generate_sections 14 entries)).bin) := by
  simp only [finish]
  rw [if_neg (by simp [hne]), if_pos ⟨hN, hfid, hstop⟩]

/-- Layout of the file for a one-glyph map: header, one index entry
pointing to offset 20, one block. -/
theorem finish_singleton (fontId c : ℕ) (g : Strokes)
    (hfid : fontId < 4294967296) :
    finish fontId [(c, g)] = some (magic ++ u32le fontId ++ u16le 0 ++ u16le 1 ++
      (indexEntry ⟨c, [some g]⟩ 20 ++ []) ++
      (blockBytes ⟨c, [some g]⟩ ++ [])) := by
  have hgs : generate_sections 14 [(c, g)] = [⟨c, [some g]⟩] := rfl
  have hstop2 : (buildBlocks (12 + (generate_sections 14 [(c, g)]).length * 8)
      (generate_sections 14 [(c, g)])).stop =
      20 + (blockBytes ⟨c, [some g]⟩).length := by
    rw [hgs, show (12 + [(⟨c, [some g]⟩ : Sec)].length * 8) = 20 from by simp]
    rfl
  rw [finish_eq fontId [(c, g)] (by rw [hgs]; simp) (by rw [hgs]; norm_num) hfid
    (by
      rw [hstop2, blockBytes_length]
      have h1 := slotLen_le (some g)
      have h2 : secPts ⟨c, [some g]⟩ = slotLen (some g) + 0 := rfl
      have h3 : (⟨c, [some g]⟩ : Sec).glyphs.length = 1 := rfl
      omega)]
  rw [hgs, show (12 + [(⟨c, [some g]⟩ : Sec)].length * 8) = 20 from by simp,
    show [(⟨c, [some g]⟩ : Sec)].length = 1 from rfl]
  rfl

/-- Concrete three-point glyph used by the closed instances below. -/
def exGlyph : Strokes := [[((0 : ℚ), 0), (1, 1)], [((1 : ℚ), 0)]]

/-- The file the packer writes for `{0: exGlyph}` with font id `21`. -/
def exBytes : List ℕ :=
  [86, 69, 67, 70, 21, 0, 0, 0, 0, 0, 1, 0, 0, 0, 0, 0, 0, 5, 0, 0,
   0, 0, 3, 0, 3, 128, 0, 127, 127, 255, 0]

theorem glyph_data_exGlyph : glyph_data exGlyph = [128, 0, 127, 127, 255, 0] := by
  simp only [exGlyph, glyph_data, List.flatMap_cons, List.flatMap_nil, encodeStroke,
    encodePoint, List.append_nil, quant_zero, quant_one]
  decide

theorem slotLen_exGlyph : slotLen (some exGlyph) = 3 := by
  show (if exGlyph = [] then 0 else min 255 ((glyph_data exGlyph).length / 2)) = 3
  rw [if_neg (by simp [exGlyph]), glyph_data_exGlyph]
  decide

theorem slotData_exGlyph : slotData (some exGlyph) = [128, 0, 127, 127, 255, 0] := by
  show (if exGlyph = [] then []
    else (glyph_data exGlyph).take (min 255 ((glyph_data exGlyph).length / 2) * 2)) =
    [128, 0, 127, 127, 255, 0]
  rw [if_neg (by simp [exGlyph]), glyph_data_exGlyph]
  decide

theorem finish_exGlyph : finish 21 [(0, exGlyph)] = some exBytes := by
  rw [finish_singleton 21 0 exGlyph (by norm_num)]
  have hbb : blockBytes ⟨0, [some exGlyph]⟩ =
      [0, 0, 3, 0, 3, 128, 0, 127, 127, 255, 0] := by
    show [0, 0] ++ u16le ((4 + (length_table ⟨0, [some exGlyph]⟩).length +
      (data_stream ⟨0, [some exGlyph]⟩).length + 3) / 4) ++
      length_table ⟨0, [some exGlyph]⟩ ++ data_stream ⟨0, [some exGlyph]⟩ =
      [0, 0, 3, 0, 3, 128, 0, 127, 127, 255, 0]
    have hlt : length_table ⟨0, [some exGlyph]⟩ = [3] := by
      show [slotLen (some exGlyph)] = [3]
      rw [slotLen_exGlyph]
    have hds : data_stream ⟨0, [some exGlyph]⟩ = [128, 0, 127, 127, 255, 0] := by
      show slotData (some exGlyph) ++ [] = [128, 0, 127, 127, 255, 0]
      rw [slotData_exGlyph]
      rfl
    rw [hlt, hds]
    rfl
  rw [hbb,
    show indexEntry ⟨0, [some exGlyph]⟩ 20 = [0, 0, 0, 0, 0, 5, 0, 0] from rfl]
  rfl

/-- Concrete out-of-range glyph and its packed file. -/
def cexGlyph : Strokes := [[((2 : ℚ), 0)]]

def cexBytes : List ℕ :=
  [86, 69, 67, 70, 21, 0, 0, 0, 0, 0, 1, 0, 0, 0, 0, 0, 0, 5, 0, 0,
   0, 0, 2, 0, 1, 255, 0]

theorem glyph_data_cexGlyph : glyph_data cexGlyph = [255, 0] := by
  simp only [cexGlyph, glyph_data, List.flatMap_cons, List.flatMap_nil, encodeStroke,
    encodePoint, List.append_nil, quant_two, quant_zero]
  decide

theorem slotLen_cexGlyph : slotLen (some cexGlyph) = 1 := by
  show (if cexGlyph = [] then 0 else min 255 ((glyph_data cexGlyph).length / 2)) = 1
  rw [if_neg (by simp [cexGlyph]), glyph_data_cexGlyph]
  decide

theorem slotData_cexGlyph : slotData (some cexGlyph) = [255, 0] := by
  show (if cexGlyph = [] then []
    else (glyph_data cexGlyph).take (min 255 ((glyph_data cexGlyph).length / 2) * 2)) =
    [255, 0]
  rw [if_neg (by simp [cexGlyph]), glyph_data_cexGlyph]
  decide

theorem finish_cexGlyph : finish 21 [(0, cexGlyph)] = some cexBytes := by
  rw [finish_singleton 21 0 cexGlyph (by norm_num)]
  have hbb : blockBytes ⟨0, [some cexGlyph]⟩ = [0, 0, 2, 0, 1, 255, 0] := by
    show [0, 0] ++ u16le ((4 + (length_table ⟨0, [some cexGlyph]⟩).length +
      (data_stream ⟨0, [some cexGlyph]⟩).length + 3) / 4) ++
      length_table ⟨0, [some cexGlyph]⟩ ++ data_stream ⟨0, [some cexGlyph]⟩ =
      [0, 0, 2, 0, 1, 255, 0]
    have hlt : length_table ⟨0, [some cexGlyph]⟩ = [1] := by
      show [slotLen (some cexGlyph)] = [1]
      rw [slotLen_cexGlyph]
    have hds : data_stream ⟨0, [some cexGlyph]⟩ = [255, 0] := by
      show slotData (some cexGlyph) ++ [] = [255, 0]
      rw [slotData_cexGlyph]
      rfl
    rw [hlt, hds]
    rfl
  rw [hbb,
    show indexEntry ⟨0, [some cexGlyph]⟩ 20 = [0, 0, 0, 0, 0, 5, 0, 0] from rfl]
  rfl

/-- C1 counterexample: the coordinate `2.0` is clamped by the packer to
`1.0`, so the parsed coordinate `1` differs from `round(2*127)/127 = 2`
by a full unit, far beyond one quantization step of `1/127`. -/
theorem C1_counterexample :
    finish 21 [(0, cexGlyph)] = some cexBytes ∧
    get_strokes (parseFile cexBytes) 0 = .ok [[((1 : ℚ), 0)]] ∧
    ¬(|((1 : ℚ)) - ((round ((2 : ℚ) * 127) : ℤ) : ℚ) / 127| ≤ 1 / 127) := by
  refine ⟨finish_cexGlyph, ?_, ?_⟩
  · have hps : parseFile cexBytes = ⟨some cexBytes, [⟨0, 1, 20⟩]⟩ := rfl
    rw [hps, get_strokes_spec cexBytes [⟨0, 1, 20⟩] 0 ⟨0, 1, 20⟩ rfl 1 rfl
      (by decide)]
    show decodeStrokes [255, 0] = Except.ok [[((1 : ℚ), 0)]]
    rw [show decodeStrokes [255, 0] =
      Except.ok [[(((255 &&& 127 : ℕ) : ℚ) / 127, ((0 &&& 127 : ℕ) : ℚ) / 127)]]
      from rfl]
    have hpt : ((((255 &&& 127 : ℕ) : ℚ)) / 127, (((0 &&& 127 : ℕ) : ℚ)) / 127) =
        ((1 : ℚ), (0 : ℚ)) := by
      rw [show ((255 &&& 127 : ℕ)) = 127 from by decide,
        show ((0 &&& 127 : ℕ)) = 0 from by decide]
      norm_num
    rw [hpt]
  · have hr : round ((2 : ℚ) * 127) = 254 := by
      rw [round_eq]
      norm_num
    rw [hr]
    norm_num

/-- Witness for C1 at the one-glyph map `{0: exGlyph}`. -/
theorem C1_witness :
    get_strokes (parseFile exBytes) 0 = .ok (quantStrokes exGlyph) :=
  (C1_roundtrip 21 [(0, exGlyph)] exBytes (by decide) (by decide)
    (by
      intro p hp st hst
      rw [List.mem_singleton.mp hp] at hst
      have h2 : st ∈ ([[((0 : ℚ), 0), (1, 1)], [((1 : ℚ), 0)]] : Strokes) := hst
      rcases List.mem_cons.mp h2 with h | h
      · rw [h]
        simp
      · rw [List.mem_singleton.mp h]
        simp)
    (by
      intro p hp
      rw [List.mem_singleton.mp hp]
      decide)
    finish_exGlyph (by decide)).1 (0, exGlyph) (List.mem_cons_self _ _)

/-! ### C3: truncated files -/

/-- C3 (corrected): on a truncated buffer the only failing read is the
direct length-table index, which raises an `IndexError` (the code has no
`TruncatedData` condition): whenever the matched section's length-table
byte for the requested codepoint lies beyond the end of the buffer, the
lookup raises.  Stream reads, by contrast, are Python slices and
truncate silently (see the counterexample). -/
theorem C3_truncated_table_read (data : List ℕ) (psecs : List PSec) (u : ℕ)
    (psec : PSec)
    (hfind : psecs.find?
      (fun s => decide (s.start ≤ u) && decide (u < s.start + s.count)) = some psec)
    (hoob : data.length ≤ psec.ptr + 4 + (u - psec.start)) :
    get_strokes ⟨some data, psecs⟩ u = .error .indexError :=
  get_strokes_err data psecs u psec hfind (List.getElem?_eq_none hoob)

/-- Witness for C3: `exBytes` truncated into the length table raises. -/
theorem C3_witness :
    get_strokes ⟨some (exBytes.take 24), [⟨0, 1, 20⟩]⟩ 0 = .error .indexError :=
  C3_truncated_table_read (exBytes.take 24) [⟨0, 1, 20⟩] 0 ⟨0, 1, 20⟩ (by rfl)
    (by decide)

/-- C3 counterexample: truncating `exBytes` to 29 bytes cuts off the
last point of `exGlyph`, yet the lookup silently returns a partial
decoding (the first stroke only) instead of surfacing an error. -/
theorem C3_counterexample :
    quantStrokes exGlyph = [[((0 : ℚ), 0), (1, 1)], [((1 : ℚ), 0)]] ∧
    get_strokes (parseFile (exBytes.take 29)) 0 = .ok [[((0 : ℚ), 0), (1, 1)]] := by
  constructor
  · simp only [exGlyph, quantStrokes, List.map_cons, List.map_nil, quantPt,
      quant_zero, quant_one]
    norm_num
  · have hps : parseFile (exBytes.take 29) =
        ⟨some (exBytes.take 29), [⟨0, 1, 20⟩]⟩ := rfl
    rw [hps, get_strokes_spec (exBytes.take 29) [⟨0, 1, 20⟩] 0 ⟨0, 1, 20⟩ rfl 3 rfl
      (by decide)]
    show decodeStrokes [128, 0, 127, 127] = Except.ok [[((0 : ℚ), 0), (1, 1)]]
    rw [show decodeStrokes [128, 0, 127, 127] =
      Except.ok [[(((128 &&& 127 : ℕ) : ℚ) / 127, ((0 &&& 127 : ℕ) : ℚ) / 127),
        (((127 &&& 127 : ℕ) : ℚ) / 127, ((127 &&& 127 : ℕ) : ℚ) / 127)]] from rfl]
    have hpt1 : ((((128 &&& 127 : ℕ) : ℚ)) / 127, (((0 &&& 127 : ℕ) : ℚ)) / 127) =
        ((0 : ℚ), (0 : ℚ)) := by
      rw [show ((128 &&& 127 : ℕ)) = 0 from by decide,
        show ((0 &&& 127 : ℕ)) = 0 from by decide]
      norm_num
    have hpt2 : ((((127 &&& 127 : ℕ) : ℚ)) / 127, (((127 &&& 127 : ℕ) : ℚ)) / 127) =
        ((1 : ℚ), (1 : ℚ)) := by
      rw [show ((127 &&& 127 : ℕ)) = 127 from by decide]
      norm_num
    rw [hpt1, hpt2]

/-! ### C6: block alignment and 24-bit pointers -/

/-- C6 (amended): in every file the packer writes, each block's absolute
offset is divisible by 4; the parser reconstructs each stored pointer as
`recon24` of the placed offset (the low 24 bits of `offset >> 2`,
re-shifted); this reconstruction is the identity exactly for offsets
below `2^26` — for larger files the 24-bit packing silently drops high
bits (see the counterexample). -/
theorem C6_alignment (fontId : ℕ) (entries : List (ℕ × Strokes)) (file : List ℕ)
    (hsort : (entries.map Prod.fst).Pairwise (· < ·))
    (hcode : ∀ p ∈ entries, p.1 < 2097152)
    (hfin : finish fontId entries = some file) :
    (∀ ptr ∈ blockPtrs entries, 4 ∣ ptr) ∧
    load file = some (List.zipWith
      (fun s p => PSec.mk s.start s.glyphs.length (recon24 p))
      (generate_sections 14 entries) (blockPtrs entries)) ∧
    (∀ ptr ∈ blockPtrs entries, ptr < 67108864 → recon24 ptr = ptr) :=
  ⟨fun ptr hp => (blockPtrs_bounds fontId entries file hfin ptr hp).1,
    load_finish fontId entries file hfin (sections_inv entries hsort hcode),
    fun ptr hp hlt =>
      recon24_eq ptr (blockPtrs_bounds fontId entries file hfin ptr hp).1 hlt⟩

/-- Witness for C6 at the one-glyph map `{0: exGlyph}`. -/
theorem C6_witness :
    (∀ ptr ∈ blockPtrs [(0, exGlyph)], 4 ∣ ptr) ∧
    load exBytes = some (List.zipWith
      (fun s p => PSec.mk s.start s.glyphs.length (recon24 p))
      (generate_sections 14 [(0, exGlyph)]) (blockPtrs [(0, exGlyph)])) ∧
    (∀ ptr ∈ blockPtrs [(0, exGlyph)], ptr < 67108864 → recon24 ptr = ptr) :=
  C6_alignment 21 [(0, exGlyph)] exBytes (by decide) (by decide) finish_exGlyph

/-! ### C6 counterexample: a file larger than 2^26 bytes -/

/-- A glyph of one stroke with 255 points: each slot fills the 255-point
cap, giving 510 stream bytes per slot. -/
def bigG : Strokes := [List.replicate 255 ((0 : ℚ), 0)]

/-- A run of `k` consecutive codepoints from `s`, all mapped to `bigG`. -/
def unifEntries (s k : ℕ) : List (ℕ × Strokes) :=
  (List.range' s k).map (fun c => (c, bigG))

/-- The sections the segmenter produces on such a run: `q` full
256-slot sections followed by one section of `r` slots. -/
def chunkSecs : ℕ → ℕ → ℕ → List Sec
  | s, 0, r => [⟨s, List.replicate r (some bigG)⟩]
  | s, q + 1, r => ⟨s, List.replicate 256 (some bigG)⟩ :: chunkSecs (s + 256) q r

theorem slotLen_bigG : slotLen (some bigG) = 255 := by
  show (if bigG = [] then 0 else min 255 ((glyph_data bigG).length / 2)) = 255
  have hne2 : ¬(bigG = []) := by decide
  rw [if_neg hne2]
  have h1 : (glyph_data bigG).length = 2 * totalPoints bigG := glyph_data_length bigG
  have h2 : totalPoints bigG = 255 := by
    show ([List.replicate 255 ((0 : ℚ), 0)].map List.length).sum = 255
    rw [List.map_cons, List.map_nil, List.length_replicate]
    rfl
  omega

/-- Running the segmenter over a uniform consecutive run starting from a
256-aligned section: it closes a section exactly every 256 slots. -/
theorem genSecsAux_unif : ∀ (k m s : ℕ), 1 ≤ m → m ≤ 256 → 256 ∣ s →
    ∀ q r, m + k = 256 * q + r → 1 ≤ r → r ≤ 256 →
    genSecsAux 14 ⟨s, List.replicate m (some bigG)⟩ (s + m - 1)
      (unifEntries (s + m) k) = chunkSecs s q r := by
  intro k
  induction k with
  | zero =>
    intro m s hm1 hm2 hdvd q r hqr hr1 hr2
    have hq : q = 0 := by omega
    have hr : r = m := by omega
    subst hq
    show genSecsAux 14 ⟨s, List.replicate m (some bigG)⟩ (s + m - 1)
      (unifEntries (s + m) 0) = [⟨s, List.replicate r (some bigG)⟩]
    rw [show unifEntries (s + m) 0 = [] from rfl, hr]
    rfl
  | succ k ih =>
    intro m s hm1 hm2 hdvd q r hqr hr1 hr2
    have hcons : unifEntries (s + m) (k + 1) =
        (s + m, bigG) :: unifEntries (s + m + 1) k := by
      show (List.range' (s + m) (k + 1)).map (fun c => (c, bigG)) = _
      rw [show List.range' (s + m) (k + 1) =
        (s + m) :: List.range' (s + m + 1) k from rfl, List.map_cons]
      rfl
    rw [hcons]
    rw [show genSecsAux 14 ⟨s, List.replicate m (some bigG)⟩ (s + m - 1)
        ((s + m, bigG) :: unifEntries (s + m + 1) k) =
      (if (s + m) - (s + m - 1) - 1 > 14 ∨
          (List.replicate m (some (bigG)) : List (Option Strokes)).length +
            ((s + m) - (s + m - 1) - 1) ≥ 256 ∨
          (s + m - 1) >>> 16 ≠ (s + m) >>> 16 then
        ⟨s, List.replicate m (some bigG)⟩ ::
          genSecsAux 14 ⟨s + m, [some bigG]⟩ (s + m) (unifEntries (s + m + 1) k)
      else
        genSecsAux 14 ⟨s, List.replicate m (some bigG) ++
            List.replicate ((s + m) - (s + m - 1) - 1) none ++ [some bigG]⟩
          (s + m) (unifEntries (s + m + 1) k)) from rfl]
    rw [show (s + m) - (s + m - 1) - 1 = 0 from by omega]
    by_cases hm256 : m = 256
    · subst hm256
      rw [if_pos (by
        right
        left
        rw [List.length_replicate])]
      obtain ⟨q2, rfl⟩ : ∃ q2, q = q2 + 1 := ⟨q - 1, by omega⟩
      have hih := ih 1 (s + 256) (by omega) (by omega) (by omega) q2 r
        (by omega) hr1 hr2
      rw [show s + 256 + 1 - 1 = s + 256 from by omega] at hih
      show (⟨s, List.replicate 256 (some bigG)⟩ : Sec) ::
        genSecsAux 14 ⟨s + 256, List.replicate 1 (some bigG)⟩ (s + 256)
          (unifEntries (s + 256 + 1) k) = chunkSecs s (q2 + 1) r
      rw [show chunkSecs s (q2 + 1) r =
        ⟨s, List.replicate 256 (some bigG)⟩ :: chunkSecs (s + 256) q2 r from rfl, hih]
    · have hmlt : m < 256 := by omega
      rw [if_neg (by
        push_neg
        refine ⟨by omega, ?_, ?_⟩
        · rw [List.length_replicate]
          omega
        · rw [shiftRight16_eq, shiftRight16_eq]
          omega)]
      rw [show (⟨s, List.replicate m (some bigG) ++ List.replicate 0 none ++
          [some bigG]⟩ : Sec) = ⟨s, List.replicate (m + 1) (some bigG)⟩ from by
        rw [show (List.replicate 0 (none : Option Strokes)) = [] from rfl,
          List.append_nil, ← List.replicate_succ']]
      have hih := ih (m + 1) s (by omega) (by omega) hdvd q r (by omega) hr1 hr2
      rw [show s + (m + 1) - 1 = s + m from by omega,
        show s + (m + 1) = s + m + 1 from by omega] at hih
      exact hih

theorem chunkSecs_length : ∀ (q s r : ℕ), (chunkSecs s q r).length = q + 1 := by
  intro q
  induction q with
  | zero => intro s r; rfl
  | succ q ih =>
    intro s r
    show (chunkSecs (s + 256) q r).length + 1 = q + 1 + 1
    rw [ih]

theorem blockBytes_len_chunk (s r : ℕ) :
    (blockBytes ⟨s, List.replicate r (some bigG)⟩).length = 4 + r + 510 * r := by
  rw [blockBytes_length]
  have h1 : secPts ⟨s, List.replicate r (some bigG)⟩ = r * 255 := by
    show ((List.replicate r (some bigG)).map slotLen).sum = r * 255
    rw [List.map_replicate, slotLen_bigG]
    exact List.sum_const_nat r 255
  have h2 : (⟨s, List.replicate r (some bigG)⟩ : Sec).glyphs.length = r :=
    List.length_replicate _ _
  rw [h1, h2]
  omega

theorem blockBytes_len_full (s : ℕ) :
    (blockBytes ⟨s, List.replicate 256 (some bigG)⟩).length = 130820 := by
  rw [blockBytes_len_chunk]

/-- Block layout of the chunked sections: one block every 130820 bytes,
no padding anywhere. -/
theorem chunk_build (r : ℕ) : ∀ (q s off : ℕ), 4 ∣ off →
    (buildBlocks off (chunkSecs s q r)).ptrs = List.range' off (q + 1) 130820 ∧
    (buildBlocks off (chunkSecs s q r)).stop =
      off + q * 130820 + (4 + r + 510 * r) := by
  intro q
  induction q with
  | zero =>
    intro s off h4
    have hpad : (4 - off % 4) % 4 = 0 := by omega
    constructor
    · show (off + (4 - off % 4) % 4) :: ([] : List ℕ) =
        List.range' off (0 + 1) 130820
      rw [hpad]
      rfl
    · show (buildBlocks (off + (4 - off % 4) % 4 +
        (blockBytes ⟨s, List.replicate r (some bigG)⟩).length) []).stop =
        off + 0 * 130820 + (4 + r + 510 * r)
      show off + (4 - off % 4) % 4 +
        (blockBytes ⟨s, List.replicate r (some bigG)⟩).length =
        off + 0 * 130820 + (4 + r + 510 * r)
      rw [hpad, blockBytes_len_chunk]
  | succ q ih =>
    intro s off h4
    have hpad : (4 - off % 4) % 4 = 0 := by omega
    obtain ⟨ihp, ihs⟩ := ih (s + 256) (off + (4 - off % 4) % 4 +
      (blockBytes ⟨s, List.replicate 256 (some bigG)⟩).length) (by
        rw [hpad, blockBytes_len_full]
        omega)
    constructor
    · show (off + (4 - off % 4) % 4) ::
        (buildBlocks (off + (4 - off % 4) % 4 +
          (blockBytes ⟨s, List.replicate 256 (some bigG)⟩).length)
          (chunkSecs (s + 256) q r)).ptrs = List.range' off (q + 1 + 1) 130820
      rw [ihp, hpad, blockBytes_len_full, Nat.add_zero]
      rfl
    · show (buildBlocks (off + (4 - off % 4) % 4 +
        (blockBytes ⟨s, List.replicate 256 (some bigG)⟩).length)
          (chunkSecs (s + 256) q r)).stop =
        off + (q + 1) * 130820 + (4 + r + 510 * r)
      rw [ihs, hpad, blockBytes_len_full]
      omega

theorem generate_sections_bigG :
    generate_sections 14 (unifEntries 0 140000) = chunkSecs 0 546 224 := by
  show genSecsAux 14 ⟨0, [some bigG]⟩ 0 (unifEntries 1 139999) = chunkSecs 0 546 224
  have h := genSecsAux_unif 139999 1 0 (by omega) (by omega) (by omega) 546 224
    (by norm_num) (by omega) (by omega)
  rw [show (0 : ℕ) + 1 - 1 = 0 from rfl, show (0 : ℕ) + 1 = 1 from rfl] at h
  exact h

/-- C6 counterexample: 140000 consecutive full glyphs produce a written
file whose 547th block sits at offset 71432108 ≥ 2^26; its 24-bit
pointer drops the high bits, so the stored pointer is not lossless. -/
theorem C6_counterexample :
    (∃ file, finish 21 (unifEntries 0 140000) = some file) ∧
    71432108 ∈ blockPtrs (unifEntries 0 140000) ∧
    recon24 71432108 ≠ 71432108 := by
  have hgs := generate_sections_bigG
  have hlen : (generate_sections 14 (unifEntries 0 140000)).length = 547 := by
    rw [hgs, chunkSecs_length]
  have hne : generate_sections 14 (unifEntries 0 140000) ≠ [] := by
    intro hcon
    rw [hcon] at hlen
    exact absurd hlen (by simp)
  have hstop : (buildBlocks
      (12 + (generate_sections 14 (unifEntries 0 140000)).length * 8)
      (generate_sections 14 (unifEntries 0 140000))).stop < 17179869184 := by
    rw [hlen, hgs, (chunk_build 224 546 0 (12 + 547 * 8) (by omega)).2]
    norm_num
  refine ⟨⟨_, finish_eq 21 (unifEntries 0 140000) hne (by rw [hlen]; norm_num)
    (by norm_num) hstop⟩, ?_, by decide⟩
  show 71432108 ∈ (buildBlocks
    (12 + (generate_sections 14 (unifEntries 0 140000)).length * 8)
    (generate_sections 14 (unifEntries 0 140000))).ptrs
  rw [hlen, hgs, (chunk_build 224 546 0 (12 + 547 * 8) (by omega)).1,
    List.mem_range']
  exact ⟨546, by norm_num, by norm_num⟩

end TinyFont
